import Mathlib

/-!
Verification of the multi-binned interval tree (`interval/interval.go`).

The Go source is shallowly embedded below.  Machine `uint64` values are
modelled as natural numbers together with explicit `% 2^64` wrap-around at
the one place the source relies on overflow (the left shift in bucket
routing), and explicit `< 2^64` hypotheses standing for the `uint64` typing
of the Go fields.  The mutually recursive `node.Add` of the source does not
structurally terminate (the leaf promotion replays stored intervals through
fresh hierarchical nodes), so `addNode` is indexed by fuel: a `none` result
means the recursion depth exceeded the fuel.

Go map iteration (`for index := range indices` in `tree.AllIntersections`)
has unspecified order; `possibleResult` therefore relates a tree and a query
to every output the Go code is allowed to produce, quantifying over the
enumeration order of the index set.
-/

set_option maxRecDepth 10000

namespace MultiBinned

/-- The constant `2^64`, the size of the unsigned 64-bit integer domain. -/
def U64 : ℕ := 2 ^ 64

/-- The value of `math.MaxUint64`. -/
def maxUint64 : ℕ := 2 ^ 64 - 1

/-- Constant `branchingFactorPower`: the power that 2 is raised to in order to get the
branching factor of the hierarchical interval tree. -/
def branchingFactorPower : ℕ := 4

/-- Constant `hierarchicalFanout`: the number of child elements in a single
hierarchical node. -/
def hierarchicalFanout : ℕ := 1 <<< branchingFactorPower

/-- Constant `offsetMask`: mask extracting the offset from interval start and end. -/
def offsetMask : ℕ := (1 <<< branchingFactorPower) - 1

/-- Constant `bucketMask = ^offsetMask`: the bitwise complement of `offsetMask` in
`uint64`, i.e. `2^64 - 1 - offsetMask`. -/
def bucketMask : ℕ := maxUint64 - offsetMask

/-- Constant `maxLeafFanout`: maximum number of intervals a leaf node stores before a
split is considered. -/
def maxLeafFanout : ℕ := 16

/-- An `Interval` represents the closed interval `[Start, End]`.  The Go field
`End` is a reserved word in Lean, hence `end_`. -/
structure Interval where
  start : ℕ
  end_ : ℕ
deriving DecidableEq, Repr

/-- A node of the interval tree: either a `nil` child slot, a leaf node with
its parallel `Indices`/`Intervals` lists, or a hierarchical node with its
children slots. -/
inductive node where
  | nilNode : node
  | leaf (indices : List ℕ) (intervals : List Interval) : node
  | hier (children : List node) : node

/-- Bucket selection `x >> (64 - branchingFactorPower)`: the bucket index of a `uint64`. -/
def bucket (x : ℕ) : ℕ := x >>> (64 - branchingFactorPower)

/-- Left shift `x << branchingFactorPower` with `uint64` wrap-around. -/
def shiftUp (x : ℕ) : ℕ := (x <<< branchingFactorPower) % U64

/-- The rewritten interval handed to child `i` by the bucket-routing loops of
`hierarchicalNode.Add` and `hierarchicalNode.AllIntersections`: the loop
starts from `{Start << P, MaxUint64}`, zeroes `Start` on every iteration past
the first (`i > startBucket`), and writes `End << P` on the last iteration
(`i == endBucket`). -/
def childInterval (iv : Interval) (i : ℕ) : Interval :=
  ⟨if i > bucket iv.start then 0 else shiftUp iv.start,
   if i = bucket iv.end_ then shiftUp iv.end_ else maxUint64⟩

/-- The masked starts tallied by `leafNode.shouldSplit`. -/
def maskedStarts (intervals : List Interval) : List ℕ :=
  intervals.map (fun iv => iv.start &&& bucketMask)

/-- The masked ends tallied by `leafNode.shouldSplit`. -/
def maskedEnds (intervals : List Interval) : List ℕ :=
  intervals.map (fun iv => iv.end_ &&& bucketMask)

/-- Embedding of `leafNode.shouldSplit`: the Go code tallies, per masked start (resp.
end), how many intervals hit it, and reports a split if some masked bucket
holds a count that is neither `0` nor `len(l.Intervals)`.  Iterating the Go
count map visits each masked value at least once; iterating the list of
masked values themselves gives the same boolean. -/
def shouldSplit (intervals : List Interval) : Bool :=
  ((maskedStarts intervals).any (fun v =>
      !((maskedStarts intervals).count v == 0) &&
      !((maskedStarts intervals).count v == intervals.length))) ||
  ((maskedEnds intervals).any (fun v =>
      !((maskedEnds intervals).count v == 0) &&
      !((maskedEnds intervals).count v == intervals.length)))

/-- The general linear-scan branch of `leafNode.AllIntersections`: a pair
`(iv, idx)` is skipped iff `end < iv.Start || start > iv.End`. -/
def leafScan (indices : List ℕ) (intervals : List Interval)
    (start end_ : ℕ) : Finset ℕ :=
  (intervals.zip indices).foldl
    (fun acc p => if end_ < p.1.start || start > p.1.end_ then acc
                  else insert p.2 acc) ∅

/-- Size helper for the termination of `queryNode`. -/
theorem sizeOf_getD_lt (l : List node) (i : ℕ) :
    sizeOf (l.getD i node.nilNode) < 1 + sizeOf l := by
  induction l generalizing i with
  | nil => simp [List.getD]
  | cons a t ih =>
    cases i with
    | zero => simp [List.getD]; omega
    | succ j =>
      have := ih j
      simp only [List.getD_cons_succ]
      simp only [List.cons.sizeOf_spec]
      omega

/-- Embedding of `node.AllIntersections`, returning the set of matching value indices.

* `nil` children contribute nothing (the routing loop `continue`s on them).
* A leaf takes the whole-bucket fast path when `start == 0 && end ==
  math.MaxUint64` and otherwise linearly scans.
* A hierarchical node routes the query to the children in buckets
  `[start >> 60, end >> 60]`, handing child `i` the rewritten query bounds
  threaded by the loop (see `childInterval`), and merges the resulting index
  sets. -/
def queryNode : node → ℕ → ℕ → Finset ℕ
  | node.nilNode, _, _ => ∅
  | node.leaf indices intervals, start, end_ =>
      if start = 0 ∧ end_ = maxUint64 then indices.toFinset
      else leafScan indices intervals start end_
  | node.hier children, start, end_ =>
      (Finset.Icc (bucket start) (bucket end_)).biUnion (fun i =>
        queryNode (children.getD i node.nilNode)
          (childInterval ⟨start, end_⟩ i).start
          (childInterval ⟨start, end_⟩ i).end_)
termination_by n => sizeOf n
decreasing_by
  have := sizeOf_getD_lt children i
  simp only [node.hier.sizeOf_spec]
  omega

/-- All value indices stored in (a leaf of) a node; auxiliary notion used to
state the storage invariants. -/
def allIndices : node → Finset ℕ
  | node.nilNode => ∅
  | node.leaf indices _ => indices.toFinset
  | node.hier children =>
      (Finset.range hierarchicalFanout).biUnion (fun i =>
        allIndices (children.getD i node.nilNode))
termination_by n => sizeOf n
decreasing_by
  have := sizeOf_getD_lt children i
  simp only [node.hier.sizeOf_spec]
  omega

/-- The empty leaf `&leafNode{}` that a hierarchical node installs in a
`nil` child slot before adding into it. -/
def emptyLeaf : node := node.leaf [] []

/-- Embedding of `newHierarchicalNode()`: a hierarchical node with 16 `nil`
children. -/
def newHierarchicalNode : node := node.hier (List.replicate 16 node.nilNode)

/-- Models `if h.Children[i] == nil { h.Children[i] = &leafNode{} }`. -/
def orEmptyLeaf : node → node
  | node.nilNode => emptyLeaf
  | n => n

/-- Embedding of `node.Add`, fuel-indexed (`none` = the recursion exceeded the fuel; the
Go recursion has no structural termination measure and can in fact recurse
unboundedly, see `leafNode.Add`'s promotion).

* A leaf first checks `len(l.Intervals) > 0 && len(l.Intervals) %
  maxLeafFanout == 0 && l.shouldSplit()`; if so it builds a fresh
  hierarchical node, replays every stored `(interval, index)` pair into it,
  and adds the new pair into that node, returning the result; otherwise it
  appends to its parallel lists and returns itself.
* A hierarchical node loops `i` over `[Start >> 60, End >> 60]`, installing
  an empty leaf in `nil` slots and overwriting slot `i` with the node
  returned by `child.Add` on the rewritten interval.
* `Add` is never invoked on a `nil` node by the source (parents replace
  `nil` with an empty leaf first). -/
def addNode : ℕ → node → Interval → ℕ → Option node
  | 0, _, _, _ => none
  | _ + 1, node.nilNode, _, _ => none
  | fuel + 1, node.leaf indices intervals, iv, valuesIndex =>
      if intervals.length != 0 && intervals.length % maxLeafFanout == 0 &&
          shouldSplit intervals then
        do
          let h ← (intervals.zip indices).foldlM
            (fun acc p => addNode fuel acc p.1 p.2) newHierarchicalNode
          addNode fuel h iv valuesIndex
      else
        some (node.leaf (indices ++ [valuesIndex]) (intervals ++ [iv]))
  | fuel + 1, node.hier children, iv, valuesIndex =>
      do
        let children' ← (List.range' (bucket iv.start)
            (bucket iv.end_ + 1 - bucket iv.start)).foldlM
          (fun cs i => do
            let c ← addNode fuel (orEmptyLeaf (cs.getD i node.nilNode))
              (childInterval iv i) valuesIndex
            pure (cs.set i c))
          children
        pure (node.hier children')

/-- The `tree` façade: root node plus the value store. -/
structure tree (V : Type) where
  Root : node
  Values : List V

/-- Embedding of `New()`. -/
def newTree (V : Type) : tree V := ⟨newHierarchicalNode, []⟩

/-- Embedding of `tree.Add`: appends the value and routes the interval into the root with
the value's index (`len(t.Values)` before the append). -/
def treeAdd {V : Type} (fuel : ℕ) (t : tree V) (iv : Interval) (v : V) :
    Option (tree V) := do
  let valuesIndex := t.Values.length
  let root ← addNode fuel t.Root iv valuesIndex
  pure ⟨root, t.Values ++ [v]⟩

/-- A whole sequence of `tree.Add` calls starting from `New()`. -/
def treeAddAll {V : Type} (fuel : ℕ) (ops : List (Interval × V)) :
    Option (tree V) :=
  ops.foldlM (fun t p => treeAdd fuel t p.1 p.2) (newTree V)

/-- The index set computed by the root for a query. -/
def rootIndices {V : Type} (t : tree V) (start end_ : ℕ) : Finset ℕ :=
  queryNode t.Root start end_

/-- The outputs `tree.AllIntersections` may produce.  The Go code returns
`(nil, false)` when the index set is empty, and otherwise materializes the
indices into values by iterating the index set — a Go map, whose iteration
order is unspecified, hence the quantification over the enumeration `l`. -/
def possibleResult {V : Type} [Inhabited V] (t : tree V) (start end_ : ℕ)
    (out : List V × Bool) : Prop :=
  ∃ l : List ℕ, l.Nodup ∧ l.toFinset = rootIndices t start end_ ∧
    out = if rootIndices t start end_ = ∅ then ([], false)
          else (l.map (fun i => t.Values.getD i default), true)

/-- The closed-interval overlap test of the source's linear scan, as a
`Bool`: the scan skips `(iv, idx)` iff `end < iv.Start || start > iv.End`. -/
def overlapB (iv : Interval) (start end_ : ℕ) : Bool :=
  !(end_ < iv.start || start > iv.end_)

/-- The overlap test as a proposition. -/
def Overlap (iv : Interval) (start end_ : ℕ) : Prop :=
  iv.start ≤ end_ ∧ start ≤ iv.end_

/-- A well-formed `uint64` interval: `Start <= End` (the spec's convention)
together with the `uint64` range bound implicit in the Go types. -/
def validIv (iv : Interval) : Prop := iv.start ≤ iv.end_ ∧ iv.end_ < U64

/-- A well-formed query: `start <= end` within the `uint64` range. -/
def validQ (start end_ : ℕ) : Prop := start ≤ end_ ∧ end_ < U64

theorem overlapB_iff (iv : Interval) (s e : ℕ) :
    overlapB iv s e = true ↔ Overlap iv s e := by
  simp [overlapB, Overlap]

theorem bucket_eq (x : ℕ) : bucket x = x / 2 ^ 60 := by
  simp [bucket, branchingFactorPower, Nat.shiftRight_eq_div_pow]

theorem shiftUp_eq (x : ℕ) : shiftUp x = x * 16 % 2 ^ 64 := by
  simp [shiftUp, branchingFactorPower, Nat.shiftLeft_eq, U64]

theorem bucket_lt_16 (x : ℕ) (hx : x < U64) : bucket x < 16 := by
  rw [bucket_eq]; unfold U64 at hx; omega

theorem bucket_mono {x y : ℕ} (h : x ≤ y) : bucket x ≤ bucket y := by
  rw [bucket_eq, bucket_eq]; exact Nat.div_le_div_right h

/-- Arithmetic core of bucket routing: a stored interval `[a, b]` overlaps a
query `[s, e]` iff in some bucket index `i` common to both routing ranges
the rewritten (clipped and shifted) interval and query overlap. -/
theorem routing_arith (a b s e : ℕ) (hab : a ≤ b) (hbU : b < 2 ^ 64)
    (hse : s ≤ e) (heU : e < 2 ^ 64) :
    (a ≤ e ∧ s ≤ b) ↔
      ∃ i, s / 2 ^ 60 ≤ i ∧ i ≤ e / 2 ^ 60 ∧ a / 2 ^ 60 ≤ i ∧ i ≤ b / 2 ^ 60 ∧
        ((if a / 2 ^ 60 < i then 0 else a * 16 % 2 ^ 64) ≤
            (if i = e / 2 ^ 60 then e * 16 % 2 ^ 64 else 2 ^ 64 - 1) ∧
         (if s / 2 ^ 60 < i then 0 else s * 16 % 2 ^ 64) ≤
            (if i = b / 2 ^ 60 then b * 16 % 2 ^ 64 else 2 ^ 64 - 1)) := by
  constructor
  · rintro ⟨h1, h2⟩
    refine ⟨max (a / 2 ^ 60) (s / 2 ^ 60), ?_, ?_, ?_, ?_, ?_, ?_⟩ <;>
      (try split_ifs) <;> omega
  · rintro ⟨i, hi1, hi2, hi3, hi4, h5, h6⟩
    split_ifs at h5 h6 <;> omega

/-- Lemma `routing_arith` phrased through the source's `childInterval` rewrite. -/
theorem routing_iff (iv : Interval) (s e : ℕ)
    (hiv : validIv iv) (hq : validQ s e) :
    Overlap iv s e ↔
      ∃ i, bucket s ≤ i ∧ i ≤ bucket e ∧
        bucket iv.start ≤ i ∧ i ≤ bucket iv.end_ ∧
        Overlap (childInterval iv i)
          (childInterval ⟨s, e⟩ i).start (childInterval ⟨s, e⟩ i).end_ := by
  obtain ⟨hab, hbU⟩ := hiv
  obtain ⟨hse, heU⟩ := hq
  unfold U64 at hbU heU
  have h := routing_arith iv.start iv.end_ s e hab hbU hse heU
  simpa [Overlap, childInterval, bucket_eq, shiftUp_eq, maxUint64] using h

/-- The rewritten interval handed down to a routed bucket is again a valid
`uint64` interval. -/
theorem childInterval_valid (a b i : ℕ) (hab : a ≤ b) (hbU : b < U64)
    (h1 : bucket a ≤ i) (h2 : i ≤ bucket b) :
    (childInterval ⟨a, b⟩ i).start ≤ (childInterval ⟨a, b⟩ i).end_ ∧
    (childInterval ⟨a, b⟩ i).end_ < U64 := by
  unfold U64 at hbU ⊢
  rw [bucket_eq] at h1 h2
  simp only [childInterval, bucket_eq, shiftUp_eq, maxUint64]
  split_ifs <;> omega

instance (iv : Interval) (s e : ℕ) : Decidable (Overlap iv s e) := by
  unfold Overlap; infer_instance

instance (iv : Interval) : Decidable (validIv iv) := by
  unfold validIv; infer_instance

instance (s e : ℕ) : Decidable (validQ s e) := by
  unfold validQ; infer_instance

/-- The value-index set matched by a multiset of `(interval, index)` entries
for a query — the brute-force reference the source must agree with. -/
def matchingIdx (E : Multiset (Interval × ℕ)) (s e : ℕ) : Finset ℕ :=
  ((E.filter (fun p => Overlap p.1 s e)).map Prod.snd).toFinset

theorem mem_matchingIdx {E : Multiset (Interval × ℕ)} {s e x : ℕ} :
    x ∈ matchingIdx E s e ↔ ∃ p ∈ E, Overlap p.1 s e ∧ p.2 = x := by
  simp only [matchingIdx, Multiset.mem_toFinset, Multiset.mem_map,
    Multiset.mem_filter]
  constructor
  · rintro ⟨p, ⟨hp, ho⟩, hx⟩; exact ⟨p, hp, ho, hx⟩
  · rintro ⟨p, hp, ho, hx⟩; exact ⟨p, ⟨hp, ho⟩, hx⟩

theorem matchingIdx_zero (s e : ℕ) : matchingIdx 0 s e = ∅ := by
  simp [matchingIdx]

theorem matchingIdx_add (E F : Multiset (Interval × ℕ)) (s e : ℕ) :
    matchingIdx (E + F) s e = matchingIdx E s e ∪ matchingIdx F s e := by
  ext x
  simp only [mem_matchingIdx, Multiset.mem_add, Finset.mem_union]
  constructor
  · rintro ⟨p, hp | hp, ho, hx⟩
    · exact Or.inl ⟨p, hp, ho, hx⟩
    · exact Or.inr ⟨p, hp, ho, hx⟩
  · rintro (⟨p, hp, ho, hx⟩ | ⟨p, hp, ho, hx⟩)
    · exact ⟨p, Or.inl hp, ho, hx⟩
    · exact ⟨p, Or.inr hp, ho, hx⟩

theorem matchingIdx_singleton (iv : Interval) (idx s e : ℕ) :
    matchingIdx {(iv, idx)} s e =
      if Overlap iv s e then {idx} else ∅ := by
  split_ifs with h <;> ext x <;>
    simp only [mem_matchingIdx, Multiset.mem_singleton, Finset.mem_singleton,
      Finset.not_mem_empty, iff_false] <;>
    [constructor; skip]
  · rintro ⟨p, rfl, _, hx⟩; exact hx.symm
  · rintro rfl; exact ⟨(iv, x), rfl, h, rfl⟩
  · rintro ⟨p, rfl, ho, _⟩; exact h ho

theorem mem_leafScan_aux (s e x : ℕ) (l : List (Interval × ℕ)) :
    ∀ acc : Finset ℕ,
      (x ∈ l.foldl (fun acc p =>
          if e < p.1.start || s > p.1.end_ then acc else insert p.2 acc) acc ↔
       x ∈ acc ∨ ∃ p ∈ l, Overlap p.1 s e ∧ p.2 = x) := by
  induction l with
  | nil => intro acc; simp
  | cons a t ih =>
    intro acc
    simp only [List.foldl_cons]
    rw [ih]
    by_cases h : (e < a.1.start || s > a.1.end_) = true
    · have hov : ¬ Overlap a.1 s e := by
        simp only [Bool.or_eq_true, decide_eq_true_eq] at h
        unfold Overlap; omega
      simp only [h, if_pos rfl]
      constructor
      · rintro (hx | hp)
        · exact Or.inl hx
        · exact Or.inr (by
            obtain ⟨p, hp1, hp2, hp3⟩ := hp
            exact ⟨p, List.mem_cons_of_mem _ hp1, hp2, hp3⟩)
      · rintro (hx | ⟨p, hp1, hp2, hp3⟩)
        · exact Or.inl hx
        · rcases List.mem_cons.mp hp1 with rfl | hp1
          · exact absurd hp2 hov
          · exact Or.inr ⟨p, hp1, hp2, hp3⟩
    · have hov : Overlap a.1 s e := by
        simp only [Bool.or_eq_true, decide_eq_true_eq] at h
        unfold Overlap; omega
      rw [if_neg h]
      simp only [Finset.mem_insert]
      constructor
      · rintro ((rfl | hx) | hp)
        · exact Or.inr ⟨a, List.mem_cons_self _ _, hov, rfl⟩
        · exact Or.inl hx
        · obtain ⟨p, hp1, hp2, hp3⟩ := hp
          exact Or.inr ⟨p, List.mem_cons_of_mem _ hp1, hp2, hp3⟩
      · rintro (hx | ⟨p, hp1, hp2, hp3⟩)
        · exact Or.inl (Or.inr hx)
        · rcases List.mem_cons.mp hp1 with rfl | hp1
          · exact Or.inl (Or.inl hp3.symm)
          · exact Or.inr ⟨p, hp1, hp2, hp3⟩

theorem mem_leafScan (indices : List ℕ) (intervals : List Interval)
    (s e x : ℕ) :
    x ∈ leafScan indices intervals s e ↔
      ∃ p ∈ intervals.zip indices, Overlap p.1 s e ∧ p.2 = x := by
  unfold leafScan
  rw [mem_leafScan_aux]
  simp

/-- The linear scan agrees with the brute-force filter over the leaf's
stored pairs. -/
theorem leafScan_eq_matchingIdx (indices : List ℕ)
    (intervals : List Interval) (s e : ℕ) :
    leafScan indices intervals s e =
      matchingIdx ↑(intervals.zip indices) s e := by
  ext x
  rw [mem_leafScan, mem_matchingIdx]
  simp

theorem queryNode_nil (s e : ℕ) : queryNode node.nilNode s e = ∅ := by
  rw [queryNode]

theorem queryNode_leaf (indices : List ℕ) (intervals : List Interval)
    (s e : ℕ) :
    queryNode (node.leaf indices intervals) s e =
      if s = 0 ∧ e = maxUint64 then indices.toFinset
      else leafScan indices intervals s e := by
  rw [queryNode]

theorem queryNode_hier (children : List node) (s e : ℕ) :
    queryNode (node.hier children) s e =
      (Finset.Icc (bucket s) (bucket e)).biUnion (fun i =>
        queryNode (children.getD i node.nilNode)
          (childInterval ⟨s, e⟩ i).start
          (childInterval ⟨s, e⟩ i).end_) := by
  rw [queryNode]

/-- A leaf node with well-formed stored intervals answers every query
(whole-bucket fast path included) with exactly the brute-force filter of its
stored pairs. -/
theorem queryNode_leaf_eq (indices : List ℕ) (intervals : List Interval)
    (hlen : indices.length = intervals.length)
    (hval : ∀ iv ∈ intervals, validIv iv) (s e : ℕ) :
    queryNode (node.leaf indices intervals) s e =
      matchingIdx ↑(intervals.zip indices) s e := by
  rw [queryNode_leaf]
  split_ifs with h
  · obtain ⟨rfl, rfl⟩ := h
    ext x
    simp only [List.mem_toFinset, mem_matchingIdx, Multiset.mem_coe]
    constructor
    · intro hx
      have hzip : (intervals.zip indices).map Prod.snd = indices :=
        List.map_snd_zip _ _ (le_of_eq hlen)
      rw [← hzip] at hx
      obtain ⟨p, hp, hpx⟩ := List.mem_map.mp hx
      refine ⟨p, hp, ?_, hpx⟩
      obtain ⟨h1, h2⟩ := hval _ (List.of_mem_zip hp).1
      refine ⟨?_, Nat.zero_le _⟩
      unfold maxUint64
      unfold U64 at h2
      omega
    · rintro ⟨p, hp, _, hpx⟩
      subst hpx
      exact (List.of_mem_zip hp).2
  · exact leafScan_eq_matchingIdx indices intervals s e

/-- The central invariant: node `n` answers every well-formed query with
exactly the brute-force matching-index set of the entry multiset `E` that
was routed into it.  Leaves are tied to their stored pairs; a hierarchical
node carries per-child entry multisets whose bucket decomposition reproduces
`E`'s matches. -/
inductive ExactR : node → Multiset (Interval × ℕ) → Prop where
  | nil : ExactR node.nilNode 0
  | leaf (indices : List ℕ) (intervals : List Interval)
      (hlen : indices.length = intervals.length)
      (hval : ∀ iv ∈ intervals, validIv iv) :
      ExactR (node.leaf indices intervals) ↑(intervals.zip indices)
  | hier (children : List node) (Es : ℕ → Multiset (Interval × ℕ))
      (E : Multiset (Interval × ℕ))
      (hlen : children.length = 16)
      (hch : ∀ i < 16, ExactR (children.getD i node.nilNode) (Es i))
      (hdec : ∀ s e : ℕ, validQ s e →
        matchingIdx E s e =
          (Finset.Icc (bucket s) (bucket e)).biUnion (fun i =>
            matchingIdx (Es i) (childInterval ⟨s, e⟩ i).start
              (childInterval ⟨s, e⟩ i).end_)) :
      ExactR (node.hier children) E

theorem ExactR_emptyLeaf : ExactR emptyLeaf 0 := by
  have h := ExactR.leaf [] [] rfl (by intro iv h; simp at h)
  simpa using h

theorem ExactR_orEmptyLeaf {n : node} {E : Multiset (Interval × ℕ)}
    (h : ExactR n E) : ExactR (orEmptyLeaf n) E := by
  cases h with
  | nil => exact ExactR_emptyLeaf
  | leaf indices intervals hlen hval => exact ExactR.leaf indices intervals hlen hval
  | hier children Es E hlen hch hdec => exact ExactR.hier children Es E hlen hch hdec

theorem getD_replicate_nil (k i : ℕ) :
    (List.replicate k node.nilNode).getD i node.nilNode = node.nilNode := by
  induction k generalizing i with
  | zero => simp [List.getD]
  | succ k ihk =>
    cases i with
    | zero => simp [List.replicate_succ]
    | succ j => simpa [List.replicate_succ] using ihk j

theorem ExactR_newHier : ExactR newHierarchicalNode 0 := by
  refine ExactR.hier (List.replicate 16 node.nilNode) (fun _ => 0) 0
    (by simp) ?_ ?_
  · intro i _
    rw [getD_replicate_nil]
    exact ExactR.nil
  · intro s e _
    ext x
    simp [matchingIdx_zero]

/-- Query correctness: under the invariant, `node.AllIntersections` computes
the brute-force matching-index set, for every well-formed query. -/
theorem queryNode_eq_matchingIdx {n : node} {E : Multiset (Interval × ℕ)}
    (h : ExactR n E) :
    ∀ s e : ℕ, validQ s e → queryNode n s e = matchingIdx E s e := by
  induction h with
  | nil => intro s e _; rw [queryNode_nil, matchingIdx_zero]
  | leaf indices intervals hlen hval =>
    intro s e _
    exact queryNode_leaf_eq indices intervals hlen hval s e
  | hier children Es E hlen hch hdec ih =>
    intro s e hq
    rw [queryNode_hier, hdec s e hq]
    refine Finset.biUnion_congr rfl ?_
    intro i hi
    obtain ⟨hi1, hi2⟩ := Finset.mem_Icc.mp hi
    have hi16 : i < 16 := lt_of_le_of_lt hi2 (bucket_lt_16 e hq.2)
    have hcv := childInterval_valid s e i hq.1 hq.2 hi1 hi2
    exact ih i hi16 _ _ ⟨hcv.1, hcv.2⟩

/-- One iteration of the routing loop of `hierarchicalNode.Add`: install an
empty leaf in a `nil` slot, add into the child, store the returned node. -/
def addChildStep (fuel : ℕ) (iv : Interval) (valuesIndex : ℕ)
    (cs : List node) (i : ℕ) : Option (List node) := do
  let c ← addNode fuel (orEmptyLeaf (cs.getD i node.nilNode))
    (childInterval iv i) valuesIndex
  pure (cs.set i c)

theorem addNode_zero (n : node) (iv : Interval) (idx : ℕ) :
    addNode 0 n iv idx = none := rfl

theorem addNode_nilNode (fuel : ℕ) (iv : Interval) (idx : ℕ) :
    addNode (fuel + 1) node.nilNode iv idx = none := rfl

theorem addNode_leaf_eq (fuel : ℕ) (indices : List ℕ)
    (intervals : List Interval) (iv : Interval) (idx : ℕ) :
    addNode (fuel + 1) (node.leaf indices intervals) iv idx =
      if intervals.length != 0 && intervals.length % maxLeafFanout == 0 &&
          shouldSplit intervals then
        do
          let h ← (intervals.zip indices).foldlM
            (fun acc p => addNode fuel acc p.1 p.2) newHierarchicalNode
          addNode fuel h iv idx
      else
        some (node.leaf (indices ++ [idx]) (intervals ++ [iv])) := rfl

theorem addNode_hier_eq (fuel : ℕ) (children : List node) (iv : Interval)
    (idx : ℕ) :
    addNode (fuel + 1) (node.hier children) iv idx =
      (do
        let children' ← (List.range' (bucket iv.start)
            (bucket iv.end_ + 1 - bucket iv.start)).foldlM
          (addChildStep fuel iv idx) children
        pure (node.hier children')) := rfl

theorem getD_set_ne (l : List node) {i j : ℕ} (x : node) (h : i ≠ j) :
    (l.set i x).getD j node.nilNode = l.getD j node.nilNode := by
  simp [List.getD_eq_getElem?_getD, List.getElem?_set_ne h]

theorem getD_set_self (l : List node) {i : ℕ} (x : node) (h : i < l.length) :
    (l.set i x).getD i node.nilNode = x := by
  simp [List.getD_eq_getElem?_getD, List.getElem?_set_self h]

/-- Closed form of the routing loop of `hierarchicalNode.Add`: slots outside
the visited range are untouched, and every visited slot `i` holds exactly
the node returned by the child's `Add` on the rewritten interval. -/
theorem foldlM_addChildStep (fuel : ℕ) (iv : Interval) (idx : ℕ) :
    ∀ (c j : ℕ) (cs cs' : List node), j + c ≤ cs.length →
      (List.range' j c).foldlM (addChildStep fuel iv idx) cs = some cs' →
      cs'.length = cs.length ∧
      (∀ i, i < j ∨ j + c ≤ i →
        cs'.getD i node.nilNode = cs.getD i node.nilNode) ∧
      (∀ i, j ≤ i → i < j + c →
        ∃ r, addNode fuel (orEmptyLeaf (cs.getD i node.nilNode))
              (childInterval iv i) idx = some r ∧
            cs'.getD i node.nilNode = r) := by
  intro c
  induction c with
  | zero =>
    intro j cs cs' _ h
    simp only [List.range', List.foldlM_nil, pure, Option.some.injEq] at h
    subst h
    exact ⟨rfl, fun _ _ => rfl, fun i h1 h2 => absurd h2 (by omega)⟩
  | succ c ihc =>
    intro j cs cs' hlen h
    rw [List.range'_succ, List.foldlM_cons] at h
    cases hstep : addChildStep fuel iv idx cs j with
    | none => rw [hstep] at h; simp at h
    | some cs₁ =>
      rw [hstep] at h
      simp only [Option.bind_eq_bind, Option.some_bind] at h
      unfold addChildStep at hstep
      cases hadd : addNode fuel (orEmptyLeaf (cs.getD j node.nilNode))
          (childInterval iv j) idx with
      | none => rw [hadd] at hstep; simp at hstep
      | some r =>
        rw [hadd] at hstep
        simp only [Option.bind_eq_bind, Option.some_bind, pure,
          Option.some.injEq] at hstep
        subst hstep
        have hlen₁ : (cs.set j r).length = cs.length := List.length_set cs j r
        obtain ⟨h1, h2, h3⟩ := ihc (j + 1) (cs.set j r) cs'
          (by omega) h
        refine ⟨by rw [h1, hlen₁], ?_, ?_⟩
        · intro i hi
          rw [h2 i (by omega)]
          exact getD_set_ne cs r (by omega)
        · intro i hij hic
          by_cases hj : i = j
          · subst hj
            refine ⟨r, hadd, ?_⟩
            rw [h2 i (Or.inl (by omega))]
            exact getD_set_self cs r (by omega)
          · obtain ⟨r', hr', hcs⟩ := h3 i (by omega) (by omega)
            rw [getD_set_ne cs r (fun hh => hj hh.symm)] at hr'
            exact ⟨r', hr', hcs⟩

/-- The matches contributed by one routed entry decompose over the buckets
exactly as the routing loop replicates it (consequence of `routing_iff`). -/
theorem matchingIdx_singleton_biUnion (iv : Interval) (idx s e : ℕ)
    (hiv : validIv iv) (hq : validQ s e) :
    matchingIdx {(iv, idx)} s e =
      (Finset.Icc (bucket s) (bucket e)).biUnion (fun i =>
        if bucket iv.start ≤ i ∧ i ≤ bucket iv.end_ then
          matchingIdx {(childInterval iv i, idx)}
            (childInterval ⟨s, e⟩ i).start (childInterval ⟨s, e⟩ i).end_
        else ∅) := by
  ext x
  rw [matchingIdx_singleton]
  simp only [Finset.mem_biUnion]
  constructor
  · intro hx
    split_ifs at hx with hov
    · have hxi : x = idx := Finset.mem_singleton.mp hx
      obtain ⟨i, h1, h2, h3, h4, ho⟩ := (routing_iff iv s e hiv hq).mp hov
      refine ⟨i, Finset.mem_Icc.mpr ⟨h1, h2⟩, ?_⟩
      rw [if_pos ⟨h3, h4⟩, matchingIdx_singleton, if_pos ho]
      exact Finset.mem_singleton.mpr hxi
    · exact absurd hx (Finset.not_mem_empty x)
  · rintro ⟨i, hi, hx⟩
    split_ifs at hx with hir
    · rw [matchingIdx_singleton] at hx
      split_ifs at hx with ho
      · obtain ⟨hi1, hi2⟩ := Finset.mem_Icc.mp hi
        have hov : Overlap iv s e :=
          (routing_iff iv s e hiv hq).mpr ⟨i, hi1, hi2, hir.1, hir.2, ho⟩
        rw [if_pos hov]
        exact hx
      · exact absurd hx (Finset.not_mem_empty x)
    · exact absurd hx (Finset.not_mem_empty x)

/-- Adding a valid interval preserves the invariant: the new node answers
for the old entries plus the one just inserted. -/
theorem addNode_preserves :
    ∀ (fuel : ℕ) {n : node} {E : Multiset (Interval × ℕ)} (iv : Interval)
      (idx : ℕ) {n' : node},
      ExactR n E → validIv iv → addNode fuel n iv idx = some n' →
      ExactR n' (E + {(iv, idx)}) := by
  intro fuel
  induction fuel with
  | zero =>
    intro n E iv idx n' _ _ h
    rw [addNode_zero] at h
    exact absurd h (by simp)
  | succ fuel ih =>
    intro n E iv idx n' hE hiv hadd
    cases hE with
    | nil =>
      rw [addNode_nilNode] at hadd
      exact absurd hadd (by simp)
    | leaf indices intervals hlen hval =>
      rw [addNode_leaf_eq] at hadd
      by_cases hsplit : (intervals.length != 0 &&
          intervals.length % maxLeafFanout == 0 && shouldSplit intervals) = true
      · rw [if_pos hsplit] at hadd
        cases hrep : (intervals.zip indices).foldlM
            (fun acc p => addNode fuel acc p.1 p.2) newHierarchicalNode with
        | none => rw [hrep] at hadd; simp at hadd
        | some h0 =>
          rw [hrep] at hadd
          simp only [Option.bind_eq_bind, Option.some_bind] at hadd
          have hfold : ∀ (pairs : List (Interval × ℕ)) (acc : node)
              (Eacc : Multiset (Interval × ℕ)) (res : node),
              (∀ p ∈ pairs, validIv p.1) → ExactR acc Eacc →
              pairs.foldlM (fun acc p => addNode fuel acc p.1 p.2) acc =
                some res →
              ExactR res (Eacc + ↑pairs) := by
            intro pairs
            induction pairs with
            | nil =>
              intro acc Eacc res _ hacc hf
              simp only [List.foldlM_nil, pure, Option.some.injEq] at hf
              subst hf
              simpa using hacc
            | cons p t iht =>
              intro acc Eacc res hvalp hacc hf
              rw [List.foldlM_cons] at hf
              cases hstep : addNode fuel acc p.1 p.2 with
              | none => rw [hstep] at hf; simp at hf
              | some acc1 =>
                rw [hstep] at hf
                simp only [Option.bind_eq_bind, Option.some_bind] at hf
                have h1 : ExactR acc1 (Eacc + {(p.1, p.2)}) :=
                  ih p.1 p.2 hacc (hvalp p (List.mem_cons_self p t)) hstep
                have h2 := iht acc1 (Eacc + {(p.1, p.2)}) res
                  (fun q hq => hvalp q (List.mem_cons_of_mem p hq)) h1 hf
                have hps : ((p.1, p.2) : Interval × ℕ) = p := rfl
                rw [hps] at h2
                have hco : (↑(p :: t) : Multiset (Interval × ℕ)) = {p} + ↑t := by
                  simp [Multiset.singleton_add]
                rw [hco, ← add_assoc]
                exact h2
          have hmain := hfold (intervals.zip indices) newHierarchicalNode 0 h0
            (fun p hp => hval _ (List.of_mem_zip hp).1) ExactR_newHier hrep
          rw [zero_add] at hmain
          exact ih iv idx hmain hiv hadd
      · rw [if_neg hsplit] at hadd
        have hn' : n' = node.leaf (indices ++ [idx]) (intervals ++ [iv]) :=
          (Option.some.inj hadd).symm
        subst hn'
        have hleaf := ExactR.leaf (indices ++ [idx]) (intervals ++ [iv])
          (by simp [hlen])
          (by
            intro iv' hiv'
            rcases List.mem_append.mp hiv' with hh | hh
            · exact hval iv' hh
            · rw [List.mem_singleton.mp hh]; exact hiv)
        rw [List.zip_append hlen.symm] at hleaf
        simpa using hleaf
    | hier children Es E hlen hch hdec =>
      rw [addNode_hier_eq] at hadd
      cases hfold : (List.range' (bucket iv.start)
          (bucket iv.end_ + 1 - bucket iv.start)).foldlM
          (addChildStep fuel iv idx) children with
      | none => rw [hfold] at hadd; simp at hadd
      | some cs' =>
        rw [hfold] at hadd
        simp only [Option.bind_eq_bind, Option.some_bind, pure,
          Option.some.injEq] at hadd
        subst hadd
        have hsb : bucket iv.start ≤ bucket iv.end_ := bucket_mono hiv.1
        have heb : bucket iv.end_ < 16 := bucket_lt_16 _ hiv.2
        obtain ⟨hlencs, hout, hin⟩ := foldlM_addChildStep fuel iv idx
          (bucket iv.end_ + 1 - bucket iv.start) (bucket iv.start)
          children cs' (by omega) hfold
        refine ExactR.hier cs'
          (fun i => Es i + (if bucket iv.start ≤ i ∧ i ≤ bucket iv.end_ then
            {(childInterval iv i, idx)} else 0))
          (E + {(iv, idx)}) (by rw [hlencs, hlen]) ?_ ?_
        · intro i hi16
          by_cases hir : bucket iv.start ≤ i ∧ i ≤ bucket iv.end_
          · obtain ⟨r, hr, hcs⟩ := hin i hir.1 (by omega)
            show ExactR (cs'.getD i node.nilNode)
              (Es i + if bucket iv.start ≤ i ∧ i ≤ bucket iv.end_ then
                {(childInterval iv i, idx)} else 0)
            rw [hcs, if_pos hir]
            have hex : ExactR (orEmptyLeaf (children.getD i node.nilNode))
                (Es i) := ExactR_orEmptyLeaf (hch i hi16)
            have hvc := childInterval_valid iv.start iv.end_ i hiv.1 hiv.2
              hir.1 hir.2
            exact ih (childInterval iv i) idx hex ⟨hvc.1, hvc.2⟩ hr
          · show ExactR (cs'.getD i node.nilNode)
              (Es i + if bucket iv.start ≤ i ∧ i ≤ bucket iv.end_ then
                {(childInterval iv i, idx)} else 0)
            rw [if_neg hir, add_zero, hout i (by omega)]
            exact hch i hi16
        · intro s e hq
          rw [matchingIdx_add, hdec s e hq,
            matchingIdx_singleton_biUnion iv idx s e hiv hq]
          ext x
          simp only [Finset.mem_union, Finset.mem_biUnion, matchingIdx_add]
          constructor
          · rintro (⟨i, hi, hx⟩ | ⟨i, hi, hx⟩)
            · exact ⟨i, hi, Or.inl hx⟩
            · refine ⟨i, hi, Or.inr ?_⟩
              split_ifs at hx with hir
              · rw [if_pos hir]; exact hx
              · exact absurd hx (Finset.not_mem_empty x)
          · rintro ⟨i, hi, hx | hx⟩
            · exact Or.inl ⟨i, hi, hx⟩
            · by_cases hir : bucket iv.start ≤ i ∧ i ≤ bucket iv.end_
              · rw [if_pos hir] at hx
                exact Or.inr ⟨i, hi, by rw [if_pos hir]; exact hx⟩
              · rw [if_neg hir, matchingIdx_zero] at hx
                exact absurd hx (Finset.not_mem_empty x)

/-- The `(interval, value-store index)` pairs of a sequence of `Add` calls,
with indices starting at `k`. -/
def entriesFrom {V : Type} (k : ℕ) : List (Interval × V) → List (Interval × ℕ)
  | [] => []
  | op :: rest => (op.1, k) :: entriesFrom (k + 1) rest

/-- All routed entries of an `Add` sequence, as a multiset. -/
def entriesOf {V : Type} (ops : List (Interval × V)) :
    Multiset (Interval × ℕ) :=
  ↑(entriesFrom 0 ops)

theorem entriesFrom_append {V : Type} (op : Interval × V) :
    ∀ (ops : List (Interval × V)) (k : ℕ),
      entriesFrom k (ops ++ [op]) =
        entriesFrom k ops ++ [(op.1, k + ops.length)] := by
  intro ops
  induction ops with
  | nil => intro k; simp [entriesFrom]
  | cons o rest iho =>
    intro k
    simp only [List.cons_append, entriesFrom, List.length_cons]
    show (o.1, k) :: entriesFrom (k + 1) (rest ++ [op]) =
      (o.1, k) :: (entriesFrom (k + 1) rest ++ [(op.1, k + (rest.length + 1))])
    rw [iho (k + 1)]
    have harith : k + 1 + rest.length = k + (rest.length + 1) := by omega
    rw [harith]

theorem map_snd_entriesFrom {V : Type} :
    ∀ (ops : List (Interval × V)) (k : ℕ),
      (entriesFrom k ops).map Prod.snd = List.range' k ops.length := by
  intro ops
  induction ops with
  | nil => intro k; rfl
  | cons o rest iho =>
    intro k
    simp [entriesFrom, iho (k + 1), List.range'_succ]

theorem map_fst_entriesFrom {V : Type} :
    ∀ (ops : List (Interval × V)) (k : ℕ),
      (entriesFrom k ops).map Prod.fst = ops.map Prod.fst := by
  intro ops
  induction ops with
  | nil => intro k; rfl
  | cons o rest iho =>
    intro k
    simp [entriesFrom, iho (k + 1)]

theorem validIv_entriesFrom {V : Type} {ops : List (Interval × V)}
    (hops : ∀ op ∈ ops, validIv op.1) (k : ℕ) :
    ∀ p ∈ entriesFrom k ops, validIv p.1 := by
  intro p hp
  have h1 : p.1 ∈ (entriesFrom k ops).map Prod.fst :=
    List.mem_map.mpr ⟨p, hp, rfl⟩
  rw [map_fst_entriesFrom] at h1
  obtain ⟨op, hop, heq⟩ := List.mem_map.mp h1
  rw [← heq]
  exact hops op hop

theorem treeAdd_eq {V : Type} (fuel : ℕ) (t : tree V) (iv : Interval)
    (v : V) :
    treeAdd fuel t iv v =
      (addNode fuel t.Root iv t.Values.length).bind
        (fun root => some ⟨root, t.Values ++ [v]⟩) := rfl

/-- Invariant of a tree built by a sequence of `Add` calls: the root is
exact for the routed entries and the value store lists the added values. -/
theorem treeAddAll_inv {V : Type} (fuel : ℕ) :
    ∀ (ops : List (Interval × V)) (t : tree V),
      (∀ op ∈ ops, validIv op.1) →
      treeAddAll fuel ops = some t →
      ExactR t.Root (entriesOf ops) ∧ t.Values = ops.map Prod.snd := by
  intro ops
  induction ops using List.reverseRecOn with
  | nil =>
    intro t _ h
    simp only [treeAddAll, List.foldlM_nil, pure, Option.some.injEq] at h
    subst h
    refine ⟨?_, rfl⟩
    show ExactR newHierarchicalNode (entriesOf ([] : List (Interval × V)))
    have : entriesOf ([] : List (Interval × V)) = 0 := rfl
    rw [this]
    exact ExactR_newHier
  | append_singleton ops op ihops =>
    intro t hval h
    unfold treeAddAll at h
    rw [List.foldlM_append] at h
    cases hpre : List.foldlM (fun t p => treeAdd fuel t p.1 p.2)
        (newTree V) ops with
    | none => rw [hpre] at h; simp at h
    | some t₁ =>
      rw [hpre] at h
      simp only [Option.bind_eq_bind, Option.some_bind, List.foldlM_cons,
        List.foldlM_nil] at h
      have h' : treeAdd fuel t₁ op.1 op.2 = some t := by
        cases hstep : treeAdd fuel t₁ op.1 op.2 with
        | none => rw [hstep] at h; simp at h
        | some t₂ =>
          rw [hstep] at h
          have ht : t₂ = t := by simpa using h
          exact congrArg some ht
      obtain ⟨h1, h2⟩ := ihops t₁
        (fun o ho => hval o (List.mem_append_left _ ho)) hpre
      rw [treeAdd_eq] at h'
      cases hroot : addNode fuel t₁.Root op.1 t₁.Values.length with
      | none => rw [hroot] at h'; simp at h'
      | some root' =>
        rw [hroot] at h'
        simp only [Option.bind_eq_bind, Option.some_bind, pure,
          Option.some.injEq] at h'
        subst h'
        have hexact := addNode_preserves fuel op.1 t₁.Values.length h1
          (hval op (List.mem_append_right _ (List.mem_singleton_self op)))
          hroot
        have hlen : t₁.Values.length = ops.length := by
          rw [h2, List.length_map]
        constructor
        · show ExactR root' (entriesOf (ops ++ [op]))
          have hentries : entriesOf (ops ++ [op]) =
              entriesOf ops + {(op.1, t₁.Values.length)} := by
            unfold entriesOf
            rw [entriesFrom_append, hlen]
            have h0 : (0 : ℕ) + ops.length = ops.length := by omega
            rw [h0]
            exact rfl
          rw [hentries]
          exact hexact
        · show t₁.Values ++ [op.2] = (ops ++ [op]).map Prod.snd
          rw [h2, List.map_append]
          rfl

theorem filter_entriesFrom_map {V : Type} (s e : ℕ) (vals : List V) (d : V) :
    ∀ (ops : List (Interval × V)) (k : ℕ),
      (∀ j (hj : j < ops.length), vals.getD (k + j) d = (ops.get ⟨j, hj⟩).2) →
      ((entriesFrom k ops).filter (fun p => decide (Overlap p.1 s e))).map
          (fun p => vals.getD p.2 d) =
        (ops.filter (fun op => decide (Overlap op.1 s e))).map Prod.snd := by
  intro ops
  induction ops with
  | nil => intro k _; rfl
  | cons op rest ihr =>
    intro k hvals
    have hshift : ∀ j (hj : j < rest.length),
        vals.getD (k + 1 + j) d = (rest.get ⟨j, hj⟩).2 := by
      intro j hj
      have h := hvals (j + 1) (by simpa using Nat.succ_lt_succ hj)
      have harith : k + (j + 1) = k + 1 + j := by omega
      rw [harith] at h
      simpa using h
    simp only [entriesFrom]
    by_cases ho : Overlap op.1 s e
    · rw [List.filter_cons_of_pos (by simpa using ho),
        List.filter_cons_of_pos (by simpa using ho)]
      simp only [List.map_cons]
      rw [ihr (k + 1) hshift]
      have h0 := hvals 0 (by simp)
      have harith : k + 0 = k := by omega
      rw [harith] at h0
      simp only [List.get] at h0
      rw [h0]
    · rw [List.filter_cons_of_neg (by simpa using ho),
        List.filter_cons_of_neg (by simpa using ho)]
      exact ihr (k + 1) hshift

theorem matchingIdx_entriesOf_val {V : Type} (ops : List (Interval × V))
    (s e : ℕ) :
    (matchingIdx (entriesOf ops) s e).val =
      ↑(((entriesFrom 0 ops).filter
          (fun p => decide (Overlap p.1 s e))).map Prod.snd) := by
  have hnodup : (((entriesFrom 0 ops).filter
      (fun p => decide (Overlap p.1 s e))).map Prod.snd).Nodup := by
    have hsub := (List.filter_sublist
      (p := fun p : Interval × ℕ => decide (Overlap p.1 s e))
      (entriesFrom 0 ops)).map Prod.snd
    rw [map_snd_entriesFrom] at hsub
    exact List.Nodup.sublist hsub (List.nodup_range' 0 ops.length)
  unfold matchingIdx entriesOf
  rw [Multiset.filter_coe]
  show ((↑(((entriesFrom 0 ops).filter
      (fun p => decide (Overlap p.1 s e))).map Prod.snd) :
        Multiset ℕ)).toFinset.val = _
  rw [Multiset.toFinset_val]
  exact Multiset.dedup_eq_self.mpr (by exact_mod_cast hnodup)

/-- Materializing the matched indices through the value store yields the
brute-force matching values. -/
theorem materialize_matching {V : Type} (ops : List (Interval × V))
    (s e : ℕ) (d : V) :
    Multiset.map (fun i => (ops.map Prod.snd).getD i d)
        (matchingIdx (entriesOf ops) s e).val =
      ↑((ops.filter (fun op => decide (Overlap op.1 s e))).map Prod.snd) := by
  rw [matchingIdx_entriesOf_val]
  have hmap : Multiset.map (fun i => (ops.map Prod.snd).getD i d)
      (↑(((entriesFrom 0 ops).filter
        (fun p => decide (Overlap p.1 s e))).map Prod.snd) : Multiset ℕ) =
      ↑((((entriesFrom 0 ops).filter
        (fun p => decide (Overlap p.1 s e))).map Prod.snd).map
          (fun i => (ops.map Prod.snd).getD i d)) := rfl
  rw [hmap, List.map_map]
  have hcomp : ((fun i => (ops.map Prod.snd).getD i d) ∘ Prod.snd) =
      (fun p : Interval × ℕ => (ops.map Prod.snd).getD p.2 d) := rfl
  rw [hcomp]
  congr 1
  apply filter_entriesFrom_map
  intro j hj
  have h0 : (0 : ℕ) + j = j := by omega
  rw [h0, List.getD_eq_getElem?_getD, List.getElem?_map,
    List.getElem?_eq_getElem hj]
  simp

theorem exists_mem_entriesFrom {V : Type} :
    ∀ (ops : List (Interval × V)) (k : ℕ) (op : Interval × V), op ∈ ops →
      ∃ j, (op.1, j) ∈ entriesFrom k ops := by
  intro ops
  induction ops with
  | nil => intro k op h; simp at h
  | cons o rest iho =>
    intro k op h
    rcases List.mem_cons.mp h with rfl | h
    · exact ⟨k, List.mem_cons_self _ _⟩
    · obtain ⟨j, hj⟩ := iho (k + 1) op h
      exact ⟨j, List.mem_cons_of_mem _ hj⟩

theorem matching_nonempty_iff {V : Type} (ops : List (Interval × V))
    (s e : ℕ) :
    matchingIdx (entriesOf ops) s e ≠ ∅ ↔ ∃ op ∈ ops, Overlap op.1 s e := by
  constructor
  · intro hne
    obtain ⟨x, hx⟩ := Finset.nonempty_iff_ne_empty.mpr hne
    obtain ⟨p, hp, ho, _⟩ := mem_matchingIdx.mp hx
    have hp' : p.1 ∈ (entriesFrom 0 ops).map Prod.fst :=
      List.mem_map.mpr ⟨p, Multiset.mem_coe.mp hp, rfl⟩
    rw [map_fst_entriesFrom] at hp'
    obtain ⟨op, hop, heq⟩ := List.mem_map.mp hp'
    exact ⟨op, hop, by rw [heq]; exact ho⟩
  · rintro ⟨op, hop, ho⟩
    obtain ⟨j, hj⟩ := exists_mem_entriesFrom ops 0 op hop
    intro heq
    have hmem : j ∈ matchingIdx (entriesOf ops) s e :=
      mem_matchingIdx.mpr ⟨(op.1, j), Multiset.mem_coe.mpr hj, ho, rfl⟩
    rw [heq] at hmem
    exact Finset.not_mem_empty j hmem

theorem coe_eq_val_of_nodup_toFinset {l : List ℕ} {S : Finset ℕ}
    (hnd : l.Nodup) (hfin : l.toFinset = S) : (↑l : Multiset ℕ) = S.val := by
  rw [← hfin]
  have h1 : (l.toFinset).val = (↑l : Multiset ℕ).dedup := rfl
  rw [h1]
  exact (Multiset.dedup_eq_self.mpr (by exact_mod_cast hnd)).symm

/-- C1: for any completed sequence of `Add` calls whose intervals satisfy
`Start <= End` (as `uint64` values), and any query `qs <= qe`, every list the
Go `tree.AllIntersections` may return equals — as an unordered multiset —
the inserted values whose interval satisfies `qe >= Start` and `qs <= End`
(`Overlap`), each matching insertion reported exactly once, and the boolean
is true iff some insertion matches. -/
theorem allIntersections_correct {V : Type} [Inhabited V] (fuel : ℕ)
    (ops : List (Interval × V)) (t : tree V) (qs qe : ℕ)
    (out : List V × Bool)
    (hops : ∀ op ∈ ops, validIv op.1)
    (ht : treeAddAll fuel ops = some t)
    (hq : qs ≤ qe) (hqU : qe < U64)
    (hout : possibleResult t qs qe out) :
    (↑out.1 : Multiset V) =
      ↑((ops.filter (fun op => decide (Overlap op.1 qs qe))).map Prod.snd) ∧
    (out.2 = true ↔ ∃ op ∈ ops, Overlap op.1 qs qe) := by
  obtain ⟨hroot, hvals⟩ := treeAddAll_inv fuel ops t hops ht
  obtain ⟨l, hnd, hfin, hout⟩ := hout
  have hquery : rootIndices t qs qe = matchingIdx (entriesOf ops) qs qe :=
    queryNode_eq_matchingIdx hroot qs qe ⟨hq, hqU⟩
  by_cases hemp : rootIndices t qs qe = ∅
  · rw [if_pos hemp] at hout
    rw [hout]
    have hm0 : matchingIdx (entriesOf ops) qs qe = ∅ := by
      rw [← hquery]; exact hemp
    constructor
    · show (↑([] : List V) : Multiset V) = _
      have hmat := materialize_matching ops qs qe (default : V)
      rw [hm0] at hmat
      exact hmat
    · have hnex : ¬ ∃ op ∈ ops, Overlap op.1 qs qe :=
        fun hex => ((matching_nonempty_iff ops qs qe).mpr hex) hm0
      simp [hnex]
  · rw [if_neg hemp] at hout
    rw [hout]
    have hml : (↑l : Multiset ℕ) = (matchingIdx (entriesOf ops) qs qe).val :=
      coe_eq_val_of_nodup_toFinset hnd (hfin.trans hquery)
    constructor
    · show (↑(l.map fun i => t.Values.getD i default) : Multiset V) = _
      have hco : (↑(l.map fun i => t.Values.getD i default) : Multiset V) =
          Multiset.map (fun i => t.Values.getD i default) ↑l := rfl
      rw [hco, hml, hvals]
      exact materialize_matching ops qs qe default
    · have hex : ∃ op ∈ ops, Overlap op.1 qs qe :=
        (matching_nonempty_iff ops qs qe).mp (by rw [← hquery]; exact hemp)
      simp [hex]

/-- Well-formedness mirrored from the Go types and constructors: stored
interval bounds are `uint64` values and hierarchical nodes have exactly the
16 child slots `newHierarchicalNode` allocates. -/
def wfNode : node → Prop
  | node.nilNode => True
  | node.leaf _ intervals =>
      ∀ iv ∈ intervals, iv.start < U64 ∧ iv.end_ < U64
  | node.hier children =>
      children.length = 16 ∧ ∀ i < 16, wfNode (children.getD i node.nilNode)
termination_by n => sizeOf n
decreasing_by
  have := sizeOf_getD_lt children i
  simp only [node.hier.sizeOf_spec]
  omega

theorem wfNode_nil : wfNode node.nilNode := by rw [wfNode]; trivial

theorem wfNode_leaf_iff (indices : List ℕ) (intervals : List Interval) :
    wfNode (node.leaf indices intervals) ↔
      ∀ iv ∈ intervals, iv.start < U64 ∧ iv.end_ < U64 := by
  rw [wfNode]

theorem wfNode_hier_iff (children : List node) :
    wfNode (node.hier children) ↔
      children.length = 16 ∧
        ∀ i < 16, wfNode (children.getD i node.nilNode) := by
  rw [wfNode]

theorem allIndices_nil : allIndices node.nilNode = ∅ := by rw [allIndices]

theorem allIndices_leaf (indices : List ℕ) (intervals : List Interval) :
    allIndices (node.leaf indices intervals) = indices.toFinset := by
  rw [allIndices]

theorem allIndices_hier (children : List node) :
    allIndices (node.hier children) =
      (Finset.range hierarchicalFanout).biUnion (fun i =>
        allIndices (children.getD i node.nilNode)) := by
  rw [allIndices]

theorem hierarchicalFanout_eq : hierarchicalFanout = 16 := rfl

theorem wfNode_emptyLeaf : wfNode emptyLeaf := by
  rw [emptyLeaf, wfNode_leaf_iff]
  intro iv h
  simp at h

theorem wfNode_orEmptyLeaf {n : node} (h : wfNode n) :
    wfNode (orEmptyLeaf n) := by
  cases n with
  | nilNode => exact wfNode_emptyLeaf
  | leaf a b => exact h
  | hier ch => exact h

theorem allIndices_orEmptyLeaf (n : node) :
    allIndices (orEmptyLeaf n) = allIndices n := by
  cases n with
  | nilNode =>
    show allIndices emptyLeaf = allIndices node.nilNode
    rw [emptyLeaf, allIndices_leaf, allIndices_nil]
    rfl
  | leaf a b => rfl
  | hier ch => rfl

theorem wfNode_newHier : wfNode newHierarchicalNode := by
  rw [newHierarchicalNode, wfNode_hier_iff]
  refine ⟨by simp, ?_⟩
  intro i _
  rw [getD_replicate_nil]
  exact wfNode_nil

theorem allIndices_newHier : allIndices newHierarchicalNode = ∅ := by
  rw [newHierarchicalNode, allIndices_hier]
  ext x
  simp only [Finset.mem_biUnion, Finset.not_mem_empty, iff_false,
    not_exists, not_and]
  intro i _
  rw [getD_replicate_nil, allIndices_nil]
  exact Finset.not_mem_empty x

theorem childInterval_start_lt (iv : Interval) (i : ℕ) :
    (childInterval iv i).start < U64 := by
  simp only [childInterval]
  split_ifs
  · unfold U64; omega
  · rw [shiftUp_eq]; unfold U64; omega

theorem childInterval_end_lt (iv : Interval) (i : ℕ) :
    (childInterval iv i).end_ < U64 := by
  simp only [childInterval]
  split_ifs
  · rw [shiftUp_eq]; unfold U64; omega
  · rw [maxUint64]; unfold U64; omega

/-- Adding a `uint64` interval preserves node well-formedness, and the only
value index the add can introduce anywhere in the subtree is its own. -/
theorem addNode_wf (fuel : ℕ) :
    ∀ {n n' : node} (iv : Interval) (idx : ℕ),
      wfNode n → iv.start < U64 → iv.end_ < U64 →
      addNode fuel n iv idx = some n' →
      wfNode n' ∧ allIndices n' ⊆ allIndices n ∪ {idx} := by
  induction fuel with
  | zero =>
    intro n n' iv idx _ _ _ h
    rw [addNode_zero] at h
    simp at h
  | succ fuel ih =>
    intro n n' iv idx hwf hiS hiU hadd
    cases n with
    | nilNode => rw [addNode_nilNode] at hadd; simp at hadd
    | leaf indices intervals =>
      rw [addNode_leaf_eq] at hadd
      by_cases hsplit : (intervals.length != 0 &&
          intervals.length % maxLeafFanout == 0 && shouldSplit intervals) = true
      · rw [if_pos hsplit] at hadd
        cases hrep : (intervals.zip indices).foldlM
            (fun acc p => addNode fuel acc p.1 p.2) newHierarchicalNode with
        | none => rw [hrep] at hadd; simp at hadd
        | some h0 =>
          rw [hrep] at hadd
          simp only [Option.bind_eq_bind, Option.some_bind] at hadd
          have hwfz : ∀ p ∈ intervals.zip indices,
              p.1.start < U64 ∧ p.1.end_ < U64 := by
            intro p hp
            exact (wfNode_leaf_iff indices intervals).mp hwf p.1
              (List.of_mem_zip hp).1
          have hfold : ∀ (pairs : List (Interval × ℕ)) (acc res : node),
              (∀ p ∈ pairs, p.1.start < U64 ∧ p.1.end_ < U64) →
              wfNode acc →
              pairs.foldlM (fun acc p => addNode fuel acc p.1 p.2) acc =
                some res →
              wfNode res ∧
                allIndices res ⊆ allIndices acc ∪
                  (pairs.map Prod.snd).toFinset := by
            intro pairs
            induction pairs with
            | nil =>
              intro acc res _ hacc hf
              simp only [List.foldlM_nil, pure, Option.some.injEq] at hf
              subst hf
              refine ⟨hacc, ?_⟩
              intro x hx
              exact Finset.mem_union_left _ hx
            | cons p tail ihp =>
              intro acc res hU hacc hf
              rw [List.foldlM_cons] at hf
              cases hstep : addNode fuel acc p.1 p.2 with
              | none => rw [hstep] at hf; simp at hf
              | some acc1 =>
                rw [hstep] at hf
                simp only [Option.bind_eq_bind, Option.some_bind] at hf
                obtain ⟨hwf1, hsub1⟩ := ih p.1 p.2 hacc
                  (hU p (List.mem_cons_self p tail)).1
                  (hU p (List.mem_cons_self p tail)).2 hstep
                obtain ⟨hwf2, hsub2⟩ := ihp acc1 res
                  (fun q hq => hU q (List.mem_cons_of_mem p hq)) hwf1 hf
                refine ⟨hwf2, ?_⟩
                intro x hx
                rcases Finset.mem_union.mp (hsub2 hx) with hx1 | hx1
                · rcases Finset.mem_union.mp (hsub1 hx1) with hx2 | hx2
                  · exact Finset.mem_union_left _ hx2
                  · refine Finset.mem_union_right _ ?_
                    simp only [List.map_cons, List.toFinset_cons,
                      Finset.mem_insert]
                    exact Or.inl (Finset.mem_singleton.mp hx2)
                · refine Finset.mem_union_right _ ?_
                  simp only [List.map_cons, List.toFinset_cons,
                    Finset.mem_insert]
                  exact Or.inr hx1
          obtain ⟨hwf0, hsub0⟩ := hfold (intervals.zip indices)
            newHierarchicalNode h0 hwfz wfNode_newHier hrep
          obtain ⟨hwf1, hsub1⟩ := ih iv idx hwf0 hiS hiU hadd
          refine ⟨hwf1, ?_⟩
          intro x hx
          rcases Finset.mem_union.mp (hsub1 hx) with hx1 | hx1
          · rcases Finset.mem_union.mp (hsub0 hx1) with hx2 | hx2
            · rw [allIndices_newHier] at hx2
              exact absurd hx2 (Finset.not_mem_empty x)
            · refine Finset.mem_union_left _ ?_
              rw [allIndices_leaf]
              obtain ⟨q, hq, hqx⟩ := List.mem_map.mp
                (List.mem_toFinset.mp hx2)
              rw [List.mem_toFinset, ← hqx]
              exact (List.of_mem_zip hq).2
          · exact Finset.mem_union_right _ hx1
      · rw [if_neg hsplit] at hadd
        have hn' : n' = node.leaf (indices ++ [idx]) (intervals ++ [iv]) :=
          (Option.some.inj hadd).symm
        subst hn'
        constructor
        · rw [wfNode_leaf_iff]
          intro iv' hiv'
          rcases List.mem_append.mp hiv' with hh | hh
          · exact (wfNode_leaf_iff indices intervals).mp hwf iv' hh
          · rw [List.mem_singleton.mp hh]
            exact ⟨hiS, hiU⟩
        · rw [allIndices_leaf, allIndices_leaf]
          intro x hx
          rw [List.mem_toFinset, List.mem_append] at hx
          rcases hx with hx | hx
          · exact Finset.mem_union_left _ (List.mem_toFinset.mpr hx)
          · exact Finset.mem_union_right _
              (Finset.mem_singleton.mpr (List.mem_singleton.mp hx))
    | hier children =>
      rw [addNode_hier_eq] at hadd
      cases hfold : (List.range' (bucket iv.start)
          (bucket iv.end_ + 1 - bucket iv.start)).foldlM
          (addChildStep fuel iv idx) children with
      | none => rw [hfold] at hadd; simp at hadd
      | some cs' =>
        rw [hfold] at hadd
        simp only [Option.bind_eq_bind, Option.some_bind, pure,
          Option.some.injEq] at hadd
        subst hadd
        obtain ⟨hlen16, hchwf⟩ := (wfNode_hier_iff children).mp hwf
        have hsb : bucket iv.start < 16 := bucket_lt_16 _ hiS
        have heb : bucket iv.end_ < 16 := bucket_lt_16 _ hiU
        obtain ⟨hlencs, hout, hin⟩ := foldlM_addChildStep fuel iv idx
          (bucket iv.end_ + 1 - bucket iv.start) (bucket iv.start)
          children cs' (by omega) hfold
        have hchr : ∀ i, bucket iv.start ≤ i → i ≤ bucket iv.end_ → i < 16 →
            ∃ r, addNode fuel (orEmptyLeaf (children.getD i node.nilNode))
                (childInterval iv i) idx = some r ∧
              cs'.getD i node.nilNode = r ∧ wfNode r ∧
              allIndices r ⊆
                allIndices (children.getD i node.nilNode) ∪ {idx} := by
          intro i h1 h2 h3
          obtain ⟨r, hr, hcs⟩ := hin i h1 (by omega)
          obtain ⟨hwr, hsr⟩ := ih (childInterval iv i) idx
            (wfNode_orEmptyLeaf (hchwf i h3))
            (childInterval_start_lt iv i) (childInterval_end_lt iv i) hr
          rw [allIndices_orEmptyLeaf] at hsr
          exact ⟨r, hr, hcs, hwr, hsr⟩
        constructor
        · rw [wfNode_hier_iff]
          refine ⟨by rw [hlencs, hlen16], ?_⟩
          intro i hi16
          by_cases hir : bucket iv.start ≤ i ∧ i ≤ bucket iv.end_
          · obtain ⟨r, _, hcs, hwr, _⟩ := hchr i hir.1 hir.2 hi16
            rw [hcs]
            exact hwr
          · rw [hout i (by omega)]
            exact hchwf i hi16
        · rw [allIndices_hier, allIndices_hier]
          intro x hx
          obtain ⟨i, hi, hx⟩ := Finset.mem_biUnion.mp hx
          have hi16 : i < 16 := by
            rw [hierarchicalFanout_eq] at hi
            exact Finset.mem_range.mp hi
          by_cases hir : bucket iv.start ≤ i ∧ i ≤ bucket iv.end_
          · obtain ⟨r, _, hcs, _, hsr⟩ := hchr i hir.1 hir.2 hi16
            rw [hcs] at hx
            rcases Finset.mem_union.mp (hsr hx) with hx1 | hx1
            · exact Finset.mem_union_left _
                (Finset.mem_biUnion.mpr ⟨i, hi, hx1⟩)
            · exact Finset.mem_union_right _ hx1
          · rw [hout i (by omega)] at hx
            exact Finset.mem_union_left _
              (Finset.mem_biUnion.mpr ⟨i, hi, hx⟩)

theorem queryNode_subset_allIndices_aux :
    ∀ (k : ℕ) (n : node), sizeOf n ≤ k → ∀ s e : ℕ, e < U64 →
      queryNode n s e ⊆ allIndices n := by
  intro k
  induction k with
  | zero =>
    intro n hn
    exfalso
    cases n <;> simp at hn <;> omega
  | succ k ihk =>
    intro n hn s e heU
    cases n with
    | nilNode =>
      rw [queryNode_nil]
      intro x hx
      simp at hx
    | leaf indices intervals =>
      rw [queryNode_leaf, allIndices_leaf]
      split_ifs
      · exact fun x hx => hx
      · intro x hx
        obtain ⟨p, hp, _, hpx⟩ := (mem_leafScan _ _ _ _ _).mp hx
        rw [List.mem_toFinset, ← hpx]
        exact (List.of_mem_zip hp).2
    | hier children =>
      rw [queryNode_hier, allIndices_hier]
      intro x hx
      obtain ⟨i, hi, hx⟩ := Finset.mem_biUnion.mp hx
      obtain ⟨hi1, hi2⟩ := Finset.mem_Icc.mp hi
      have hi16 : i < 16 := lt_of_le_of_lt hi2 (bucket_lt_16 e heU)
      have hsz : sizeOf (children.getD i node.nilNode) ≤ k := by
        have h1 := sizeOf_getD_lt children i
        have h2 : sizeOf (node.hier children) = 1 + sizeOf children := by
          simp
        omega
      have hq := ihk (children.getD i node.nilNode) hsz
        (childInterval ⟨s, e⟩ i).start (childInterval ⟨s, e⟩ i).end_
        (childInterval_end_lt ⟨s, e⟩ i)
      refine Finset.mem_biUnion.mpr ⟨i, ?_, hq hx⟩
      rw [hierarchicalFanout_eq]
      exact Finset.mem_range.mpr hi16

/-- A query can only ever report indices that are stored in the tree. -/
theorem queryNode_subset_allIndices (n : node) (s e : ℕ) (heU : e < U64) :
    queryNode n s e ⊆ allIndices n :=
  queryNode_subset_allIndices_aux (sizeOf n) n le_rfl s e heU

theorem treeAddAll_snoc {V : Type} (fuel : ℕ) (ops : List (Interval × V))
    (op : Interval × V) (t : tree V)
    (h : treeAddAll fuel (ops ++ [op]) = some t) :
    ∃ t₁, treeAddAll fuel ops = some t₁ ∧
      ∃ root', addNode fuel t₁.Root op.1 t₁.Values.length = some root' ∧
        t = ⟨root', t₁.Values ++ [op.2]⟩ := by
  unfold treeAddAll at h ⊢
  rw [List.foldlM_append] at h
  cases hpre : List.foldlM (fun t p => treeAdd fuel t p.1 p.2)
      (newTree V) ops with
  | none => rw [hpre] at h; simp at h
  | some t₁ =>
    rw [hpre] at h
    simp only [Option.bind_eq_bind, Option.some_bind, List.foldlM_cons,
      List.foldlM_nil] at h
    refine ⟨t₁, rfl, ?_⟩
    rw [treeAdd_eq] at h
    cases hroot : addNode fuel t₁.Root op.1 t₁.Values.length with
    | none => rw [hroot] at h; simp at h
    | some root' =>
      rw [hroot] at h
      have ht : t = tree.mk root' (t₁.Values ++ [op.2]) := by
        have := h
        simpa using this.symm
      exact ⟨root', rfl, ht⟩

theorem treeAddAll_values {V : Type} (fuel : ℕ) :
    ∀ (ops : List (Interval × V)) (t : tree V),
      treeAddAll fuel ops = some t → t.Values = ops.map Prod.snd := by
  intro ops
  induction ops using List.reverseRecOn with
  | nil =>
    intro t h
    simp only [treeAddAll, List.foldlM_nil, pure, Option.some.injEq] at h
    subst h
    rfl
  | append_singleton ops op ihops =>
    intro t h
    obtain ⟨t₁, hpre, root', hroot, rfl⟩ := treeAddAll_snoc fuel ops op t h
    show t₁.Values ++ [op.2] = (ops ++ [op]).map Prod.snd
    rw [ihops t₁ hpre, List.map_append]
    rfl

/-- Well-formedness of a built tree, plus the storage-bounds invariant:
every index stored anywhere in the tree is a valid value-store index. -/
theorem treeAddAll_wf {V : Type} (fuel : ℕ) :
    ∀ (ops : List (Interval × V)) (t : tree V),
      (∀ op ∈ ops, op.1.start < U64 ∧ op.1.end_ < U64) →
      treeAddAll fuel ops = some t →
      wfNode t.Root ∧ ∀ x ∈ allIndices t.Root, x < t.Values.length := by
  intro ops
  induction ops using List.reverseRecOn with
  | nil =>
    intro t _ h
    simp only [treeAddAll, List.foldlM_nil, pure, Option.some.injEq] at h
    subst h
    refine ⟨wfNode_newHier, ?_⟩
    intro x hx
    rw [show (newTree V).Root = newHierarchicalNode from rfl,
      allIndices_newHier] at hx
    exact absurd hx (Finset.not_mem_empty x)
  | append_singleton ops op ihops =>
    intro t hU h
    obtain ⟨t₁, hpre, root', hroot, rfl⟩ := treeAddAll_snoc fuel ops op t h
    obtain ⟨hwf1, hidx1⟩ := ihops t₁
      (fun o ho => hU o (List.mem_append_left _ ho)) hpre
    have hopU := hU op (List.mem_append_right _ (List.mem_singleton_self op))
    obtain ⟨hwf2, hsub2⟩ := addNode_wf fuel op.1 t₁.Values.length hwf1
      hopU.1 hopU.2 hroot
    refine ⟨hwf2, ?_⟩
    intro x hx
    show x < (t₁.Values ++ [op.2]).length
    rw [List.length_append]
    rcases Finset.mem_union.mp (hsub2 hx) with hx1 | hx1
    · have := hidx1 x hx1
      omega
    · have := Finset.mem_singleton.mp hx1
      simp [this]

theorem addNode_hier_shape (fuel : ℕ) {children : List node} {iv : Interval}
    {idx : ℕ} {n' : node}
    (h : addNode fuel (node.hier children) iv idx = some n') :
    ∃ ch', n' = node.hier ch' := by
  cases fuel with
  | zero => rw [addNode_zero] at h; simp at h
  | succ fuel =>
    rw [addNode_hier_eq] at h
    cases hf : (List.range' (bucket iv.start)
        (bucket iv.end_ + 1 - bucket iv.start)).foldlM
        (addChildStep fuel iv idx) children with
    | none => rw [hf] at h; simp at h
    | some cs' =>
      rw [hf] at h
      refine ⟨cs', ?_⟩
      have := h
      simpa using this.symm

theorem treeAddAll_root_hier {V : Type} (fuel : ℕ) :
    ∀ (ops : List (Interval × V)) (t : tree V),
      treeAddAll fuel ops = some t → ∃ ch, t.Root = node.hier ch := by
  intro ops
  induction ops using List.reverseRecOn with
  | nil =>
    intro t h
    simp only [treeAddAll, List.foldlM_nil, pure, Option.some.injEq] at h
    subst h
    exact ⟨List.replicate 16 node.nilNode, rfl⟩
  | append_singleton ops op ihops =>
    intro t h
    obtain ⟨t₁, hpre, root', hroot, rfl⟩ := treeAddAll_snoc fuel ops op t h
    obtain ⟨ch, hch⟩ := ihops t₁ hpre
    rw [hch] at hroot
    exact addNode_hier_shape fuel hroot

/-- An interval whose start routes to a strictly higher bucket than its end
makes the routing loop of `hierarchicalNode.Add` run zero iterations: the
node is returned unchanged. -/
theorem addNode_hier_inverted (fuel : ℕ) (children : List node)
    (iv : Interval) (idx : ℕ) (hbad : bucket iv.end_ < bucket iv.start) :
    addNode (fuel + 1) (node.hier children) iv idx =
      some (node.hier children) := by
  rw [addNode_hier_eq]
  have h0 : bucket iv.end_ + 1 - bucket iv.start = 0 := by omega
  rw [h0]
  rfl

theorem treeAddSeq_avoids {V : Type} (fuel : ℕ) :
    ∀ (ops2 : List (Interval × V)) (t₀ t : tree V) (k : ℕ),
      (∀ o ∈ ops2, o.1.start < U64 ∧ o.1.end_ < U64) →
      wfNode t₀.Root → k ∉ allIndices t₀.Root → k < t₀.Values.length →
      ops2.foldlM (fun t p => treeAdd fuel t p.1 p.2) t₀ = some t →
      k ∉ allIndices t.Root := by
  intro ops2
  induction ops2 with
  | nil =>
    intro t₀ t k _ _ hk _ h
    simp only [List.foldlM_nil, pure, Option.some.injEq] at h
    subst h
    exact hk
  | cons o rest iho =>
    intro t₀ t k hU hwf hk hkl h
    rw [List.foldlM_cons] at h
    cases hstep : treeAdd fuel t₀ o.1 o.2 with
    | none => rw [hstep] at h; simp at h
    | some t₁ =>
      rw [hstep] at h
      simp only [Option.bind_eq_bind, Option.some_bind] at h
      rw [treeAdd_eq] at hstep
      cases hroot : addNode fuel t₀.Root o.1 t₀.Values.length with
      | none => rw [hroot] at hstep; simp at hstep
      | some root' =>
        rw [hroot] at hstep
        have ht₁ : t₁ = tree.mk root' (t₀.Values ++ [o.2]) := by
          have := hstep
          simpa using this.symm
        subst ht₁
        have hoU := hU o (List.mem_cons_self o rest)
        obtain ⟨hwf1, hsub1⟩ := addNode_wf fuel o.1 t₀.Values.length hwf
          hoU.1 hoU.2 hroot
        refine iho (tree.mk root' (t₀.Values ++ [o.2])) t k
          (fun q hq => hU q (List.mem_cons_of_mem o hq)) hwf1 ?_ ?_ h
        · intro hmem
          rcases Finset.mem_union.mp (hsub1 hmem) with hx | hx
          · exact hk hx
          · have := Finset.mem_singleton.mp hx
            omega
        · show k < (t₀.Values ++ [o.2]).length
          rw [List.length_append]
          omega

theorem any_count_ne_iff (l : List ℕ) :
    (l.any (fun v => !(l.count v == 0) && !(l.count v == l.length))) = true ↔
      ∃ a ∈ l, ∃ b ∈ l, a ≠ b := by
  rw [List.any_eq_true]
  constructor
  · rintro ⟨v, hv, hp⟩
    simp only [Bool.and_eq_true, Bool.not_eq_true', beq_eq_false_iff_ne,
      ne_eq] at hp
    have hne : ¬ ∀ b ∈ l, v = b := fun hall =>
      hp.2 (List.count_eq_length.mpr hall)
    push_neg at hne
    obtain ⟨b, hb, hvb⟩ := hne
    exact ⟨v, hv, b, hb, hvb⟩
  · rintro ⟨a, ha, b, hb, hab⟩
    refine ⟨a, ha, ?_⟩
    simp only [Bool.and_eq_true, Bool.not_eq_true', beq_eq_false_iff_ne,
      ne_eq]
    constructor
    · intro hc
      rw [← List.count_pos_iff_mem] at ha
      omega
    · intro hc
      exact hab (List.count_eq_length.mp hc b hb)

/-- C5: `leafNode.shouldSplit` returns true iff the stored intervals exhibit
at least two distinct masked starts (`x & ^offsetMask`) or at least two
distinct masked ends; equivalently it is false exactly when all masked
starts coincide and all masked ends coincide. -/
theorem shouldSplit_iff (intervals : List Interval) :
    shouldSplit intervals = true ↔
      ((∃ p ∈ intervals, ∃ q ∈ intervals,
          p.start &&& bucketMask ≠ q.start &&& bucketMask) ∨
       (∃ p ∈ intervals, ∃ q ∈ intervals,
          p.end_ &&& bucketMask ≠ q.end_ &&& bucketMask)) := by
  have hs : (maskedStarts intervals).length = intervals.length :=
    List.length_map _ _
  have he : (maskedEnds intervals).length = intervals.length :=
    List.length_map _ _
  rw [shouldSplit, Bool.or_eq_true]
  rw [show (fun v => !((maskedStarts intervals).count v == 0) &&
      !((maskedStarts intervals).count v == intervals.length)) =
      (fun v => !((maskedStarts intervals).count v == 0) &&
      !((maskedStarts intervals).count v ==
        (maskedStarts intervals).length)) by rw [hs]]
  rw [show (fun v => !((maskedEnds intervals).count v == 0) &&
      !((maskedEnds intervals).count v == intervals.length)) =
      (fun v => !((maskedEnds intervals).count v == 0) &&
      !((maskedEnds intervals).count v ==
        (maskedEnds intervals).length)) by rw [he]]
  rw [any_count_ne_iff, any_count_ne_iff]
  constructor
  · rintro (⟨a, ha, b, hb, hab⟩ | ⟨a, ha, b, hb, hab⟩)
    · obtain ⟨p, hp, hpa⟩ := List.mem_map.mp ha
      obtain ⟨q, hq, hqb⟩ := List.mem_map.mp hb
      exact Or.inl ⟨p, hp, q, hq, by rw [hpa, hqb]; exact hab⟩
    · obtain ⟨p, hp, hpa⟩ := List.mem_map.mp ha
      obtain ⟨q, hq, hqb⟩ := List.mem_map.mp hb
      exact Or.inr ⟨p, hp, q, hq, by rw [hpa, hqb]; exact hab⟩
  · rintro (⟨p, hp, q, hq, hpq⟩ | ⟨p, hp, q, hq, hpq⟩)
    · exact Or.inl ⟨p.start &&& bucketMask,
        List.mem_map.mpr ⟨p, hp, rfl⟩, q.start &&& bucketMask,
        List.mem_map.mpr ⟨q, hq, rfl⟩, hpq⟩
    · exact Or.inr ⟨p.end_ &&& bucketMask,
        List.mem_map.mpr ⟨p, hp, rfl⟩, q.end_ &&& bucketMask,
        List.mem_map.mpr ⟨q, hq, rfl⟩, hpq⟩

/-- C6: on the whole-bucket query `(0, MaxUint64)` a leaf's fast path
returns every stored index, and that is exactly what the general linear
scan branch computes for the same query. -/
theorem leaf_whole_bucket_fast_path (indices : List ℕ)
    (intervals : List Interval)
    (hlen : indices.length = intervals.length)
    (hU : ∀ iv ∈ intervals, iv.start < U64) :
    queryNode (node.leaf indices intervals) 0 maxUint64 =
      indices.toFinset ∧
    queryNode (node.leaf indices intervals) 0 maxUint64 =
      leafScan indices intervals 0 maxUint64 := by
  have h1 : queryNode (node.leaf indices intervals) 0 maxUint64 =
      indices.toFinset := by
    rw [queryNode_leaf, if_pos ⟨rfl, rfl⟩]
  refine ⟨h1, ?_⟩
  rw [h1]
  ext x
  rw [mem_leafScan, List.mem_toFinset]
  constructor
  · intro hx
    have hzip : (intervals.zip indices).map Prod.snd = indices :=
      List.map_snd_zip _ _ (le_of_eq hlen)
    rw [← hzip] at hx
    obtain ⟨p, hp, hpx⟩ := List.mem_map.mp hx
    refine ⟨p, hp, ?_, hpx⟩
    have hs := hU p.1 (List.of_mem_zip hp).1
    refine ⟨?_, Nat.zero_le _⟩
    rw [maxUint64]
    unfold U64 at hs
    omega
  · rintro ⟨p, hp, _, hpx⟩
    rw [← hpx]
    exact (List.of_mem_zip hp).2

/-- C7: the boolean result of `tree.AllIntersections` distinguishes the
empty result from a found result: `found = false` forces an empty value
list and `found = true` guarantees a non-empty one. -/
theorem found_flag_consistent {V : Type} [Inhabited V] (t : tree V)
    (qs qe : ℕ) (out : List V × Bool)
    (hout : possibleResult t qs qe out) :
    (out.2 = false → out.1 = []) ∧ (out.2 = true → out.1 ≠ []) := by
  obtain ⟨l, _, hfin, hout⟩ := hout
  by_cases hemp : rootIndices t qs qe = ∅
  · rw [if_pos hemp] at hout
    rw [hout]
    exact ⟨fun _ => rfl, fun h => absurd h (by simp)⟩
  · rw [if_neg hemp] at hout
    rw [hout]
    refine ⟨fun h => absurd h (by simp), fun _ => ?_⟩
    intro hcon
    have hl : l = [] := List.map_eq_nil.mp hcon
    rw [hl] at hfin
    exact hemp (by rw [← hfin]; rfl)

/-- C8: the root created by `New()` is hierarchical and stays hierarchical
under every sequence of `Add` calls, because a hierarchical node's `Add`
always returns a hierarchical node (the updated receiver) — no hierarchical
node is ever demoted to a leaf, so `tree.Add` discarding the returned root
is safe. -/
theorem root_stays_hierarchical {V : Type} (fuel : ℕ)
    (ops : List (Interval × V)) (t : tree V)
    (ht : treeAddAll fuel ops = some t) :
    (∃ ch, (newTree V).Root = node.hier ch) ∧
    (∃ ch, t.Root = node.hier ch) ∧
    (∀ (f : ℕ) (ch₀ : List node) (iv : Interval) (idx : ℕ) (n' : node),
      addNode f (node.hier ch₀) iv idx = some n' →
        ∃ ch', n' = node.hier ch') := by
  refine ⟨⟨List.replicate 16 node.nilNode, rfl⟩,
    treeAddAll_root_hier fuel ops t ht, ?_⟩
  intro f ch₀ iv idx n' h
  exact addNode_hier_shape f h

/-- C10: every value index stored in any leaf of a built tree is a valid
index into the value store, hence every index a query returns is valid and
the materialization `t.Values[index]` cannot go out of bounds. -/
theorem stored_indices_in_bounds {V : Type} (fuel : ℕ)
    (ops : List (Interval × V)) (t : tree V)
    (hU : ∀ op ∈ ops, op.1.start < U64 ∧ op.1.end_ < U64)
    (ht : treeAddAll fuel ops = some t) :
    (∀ x ∈ allIndices t.Root, x < t.Values.length) ∧
    (∀ s e : ℕ, e < U64 →
      ∀ x ∈ rootIndices t s e, x < t.Values.length) := by
  obtain ⟨_, hidx⟩ := treeAddAll_wf fuel ops t hU ht
  exact ⟨hidx, fun s e he x hx =>
    hidx x (queryNode_subset_allIndices t.Root s e he hx)⟩

/-- C9: an `Add` whose interval start routes to a strictly higher bucket
than its end (possible only for `Start > End`) runs the routing loop zero
times: the value is appended to the store but its index is recorded in no
node, and no later query with `uint64` bounds ever reports it. -/
theorem inverted_interval_never_reported {V : Type} (fuel : ℕ)
    (ops1 : List (Interval × V)) (op : Interval × V)
    (ops2 : List (Interval × V)) (t : tree V)
    (hU : ∀ o ∈ ops1 ++ op :: ops2, o.1.start < U64 ∧ o.1.end_ < U64)
    (hbad : bucket op.1.end_ < bucket op.1.start)
    (ht : treeAddAll fuel (ops1 ++ op :: ops2) = some t) :
    op.1.end_ < op.1.start ∧
    (∀ (f : ℕ) (ch : List node) (idx : ℕ),
      addNode (f + 1) (node.hier ch) op.1 idx = some (node.hier ch)) ∧
    t.Values = (ops1 ++ op :: ops2).map Prod.snd ∧
    ops1.length ∉ allIndices t.Root ∧
    (∀ s e : ℕ, e < U64 → ops1.length ∉ rootIndices t s e) := by
  have hstartend : op.1.end_ < op.1.start := by
    by_contra hcon
    push_neg at hcon
    exact absurd (bucket_mono hcon) (by omega)
  have hvalues := treeAddAll_values fuel (ops1 ++ op :: ops2) t ht
  have hzero : ∀ (f : ℕ) (ch : List node) (idx : ℕ),
      addNode (f + 1) (node.hier ch) op.1 idx = some (node.hier ch) :=
    fun f ch idx => addNode_hier_inverted f ch op.1 idx hbad
  refine ⟨hstartend, hzero, hvalues, ?_⟩
  have hsplit : ops1 ++ op :: ops2 = (ops1 ++ [op]) ++ ops2 := by simp
  rw [hsplit] at ht hU
  unfold treeAddAll at ht
  rw [List.foldlM_append] at ht
  cases hpre : List.foldlM (fun t p => treeAdd fuel t p.1 p.2)
      (newTree V) (ops1 ++ [op]) with
  | none => rw [hpre] at ht; simp at ht
  | some t₂ =>
    rw [hpre] at ht
    simp only [Option.bind_eq_bind, Option.some_bind] at ht
    obtain ⟨t₁, hpre1, root', hroot, ht₂⟩ :=
      treeAddAll_snoc fuel ops1 op t₂ hpre
    have hU1 : ∀ o ∈ ops1, o.1.start < U64 ∧ o.1.end_ < U64 :=
      fun o ho => hU o (List.mem_append_left _ (List.mem_append_left _ ho))
    obtain ⟨hwf1, hidx1⟩ := treeAddAll_wf fuel ops1 t₁ hU1 hpre1
    have hvals1 : t₁.Values = ops1.map Prod.snd :=
      treeAddAll_values fuel ops1 t₁ hpre1
    have hlen1 : t₁.Values.length = ops1.length := by
      rw [hvals1]; exact List.length_map _ _
    obtain ⟨ch, hch⟩ := treeAddAll_root_hier fuel ops1 t₁ hpre1
    rw [hch] at hroot
    have hroot' : root' = node.hier ch := by
      cases fuel with
      | zero => rw [addNode_zero] at hroot; exact absurd hroot (by simp)
      | succ f =>
        rw [hzero f ch t₁.Values.length] at hroot
        exact (Option.some.inj hroot).symm
    have hk1 : ops1.length ∉ allIndices t₁.Root := by
      intro hmem
      have := hidx1 _ hmem
      omega
    have hwf2 : wfNode t₂.Root := by
      rw [ht₂]
      show wfNode root'
      rw [hroot', ← hch]
      exact hwf1
    have hk2 : ops1.length ∉ allIndices t₂.Root := by
      rw [ht₂]
      show ops1.length ∉ allIndices root'
      rw [hroot', ← hch]
      exact hk1
    have hkl2 : ops1.length < t₂.Values.length := by
      rw [ht₂]
      show ops1.length < (t₁.Values ++ [op.2]).length
      rw [List.length_append, List.length_singleton]
      omega
    have hU2 : ∀ o ∈ ops2, o.1.start < U64 ∧ o.1.end_ < U64 :=
      fun o ho => hU o (List.mem_append_right _ ho)
    have hfinal := treeAddSeq_avoids fuel ops2 t₂ t ops1.length hU2
      hwf2 hk2 hkl2 ht
    refine ⟨hfinal, ?_⟩
    intro s e he hmem
    exact hfinal (queryNode_subset_allIndices t.Root s e he hmem)

theorem leafSplitCond_iff (intervals : List Interval) :
    (intervals.length != 0 && intervals.length % maxLeafFanout == 0 &&
      shouldSplit intervals) = true ↔
    (intervals.length ≠ 0 ∧ intervals.length % maxLeafFanout = 0 ∧
      shouldSplit intervals = true) := by
  simp [Bool.and_eq_true, bne_iff_ne, beq_iff_eq, and_assoc]

/-- C2 (amended): `leafNode.Add` promotes — replaying every stored pair
into a fresh hierarchical node, adding the new pair there, and returning
that (hierarchical) node — exactly when the length BEFORE the prospective
append is a positive multiple of `maxLeafFanout = 16` and `shouldSplit` is
true; in every other case it appends to its parallel lists and returns
itself. -/
theorem leaf_add_promotion (fuel : ℕ) (indices : List ℕ)
    (intervals : List Interval) (iv : Interval) (idx : ℕ) :
    (intervals.length ≠ 0 ∧ intervals.length % maxLeafFanout = 0 ∧
        shouldSplit intervals = true →
      (addNode (fuel + 1) (node.leaf indices intervals) iv idx =
        ((intervals.zip indices).foldlM
          (fun acc p => addNode fuel acc p.1 p.2)
          newHierarchicalNode).bind
          (fun h => addNode fuel h iv idx)) ∧
      (∀ n', addNode (fuel + 1) (node.leaf indices intervals) iv idx =
          some n' → ∃ ch', n' = node.hier ch')) ∧
    (¬(intervals.length ≠ 0 ∧ intervals.length % maxLeafFanout = 0 ∧
        shouldSplit intervals = true) →
      addNode (fuel + 1) (node.leaf indices intervals) iv idx =
        some (node.leaf (indices ++ [idx]) (intervals ++ [iv]))) := by
  constructor
  · intro hcond
    have hb := (leafSplitCond_iff intervals).mpr hcond
    constructor
    · rw [addNode_leaf_eq, if_pos hb]
      rfl
    · intro n' h
      rw [addNode_leaf_eq, if_pos hb] at h
      cases hrep : (intervals.zip indices).foldlM
          (fun acc p => addNode fuel acc p.1 p.2) newHierarchicalNode with
      | none => rw [hrep] at h; simp at h
      | some h0 =>
        rw [hrep] at h
        simp only [Option.bind_eq_bind, Option.some_bind] at h
        have hfold : ∀ (pairs : List (Interval × ℕ)) (ch : List node)
            (res : node),
            pairs.foldlM (fun acc p => addNode fuel acc p.1 p.2)
              (node.hier ch) = some res → ∃ ch', res = node.hier ch' := by
          intro pairs
          induction pairs with
          | nil =>
            intro ch res hf
            simp only [List.foldlM_nil, pure, Option.some.injEq] at hf
            exact ⟨ch, hf.symm⟩
          | cons p tail ihp =>
            intro ch res hf
            rw [List.foldlM_cons] at hf
            cases hstep : addNode fuel (node.hier ch) p.1 p.2 with
            | none => rw [hstep] at hf; simp at hf
            | some acc1 =>
              rw [hstep] at hf
              simp only [Option.bind_eq_bind, Option.some_bind] at hf
              obtain ⟨ch1, hch1⟩ := addNode_hier_shape fuel hstep
              rw [hch1] at hf
              exact ihp ch1 res hf
        obtain ⟨ch0, hch0⟩ := hfold (intervals.zip indices)
          (List.replicate 16 node.nilNode) h0 hrep
        rw [hch0] at h
        exact addNode_hier_shape fuel h
  · intro hcond
    have hb : ¬((intervals.length != 0 &&
        intervals.length % maxLeafFanout == 0 &&
        shouldSplit intervals) = true) :=
      fun hh => hcond ((leafSplitCond_iff intervals).mp hh)
    rw [addNode_leaf_eq, if_neg hb]

/-- The leaf the C2 counterexample starts from: 15 stored intervals with
two distinct masked starts, so `shouldSplit` is true. -/
def c2Intervals : List Interval := List.replicate 14 ⟨0, 0⟩ ++ [⟨16, 16⟩]

/-- Parallel index list for `c2Intervals`. -/
def c2Indices : List ℕ := List.range 15

/-- C2 counterexample: on the 16th `Add` the post-append length is the
positive multiple `16` of the fanout threshold and `shouldSplit` is true,
so the claim requires a promotion — but the code appends and returns a
leaf, because it tests the length before the append. -/
theorem leaf_add_postlen_cex :
    (c2Intervals.length + 1) % maxLeafFanout = 0 ∧
    0 < c2Intervals.length + 1 ∧
    shouldSplit c2Intervals = true ∧
    addNode 2 (node.leaf c2Indices c2Intervals) ⟨32, 32⟩ 15 =
      some (node.leaf (c2Indices ++ [15]) (c2Intervals ++ [⟨32, 32⟩])) ∧
    (∀ ch', addNode 2 (node.leaf c2Indices c2Intervals) ⟨32, 32⟩ 15 ≠
      some (node.hier ch')) := by
  refine ⟨by decide, by decide, by decide, rfl, ?_⟩
  intro ch' hcontra
  rw [show addNode 2 (node.leaf c2Indices c2Intervals) ⟨32, 32⟩ 15 =
    some (node.leaf (c2Indices ++ [15]) (c2Intervals ++ [⟨32, 32⟩]))
      from rfl] at hcontra
  simp at hcontra

/-- C3: `hierarchicalNode.Add` writes into exactly the children with index
in `[Start >> 60, End >> 60]`; the rewritten interval for child `i` has
lower bound `Start << 4` when `i` is the start bucket and `0` otherwise and
upper bound `End << 4` when `i` is the end bucket and `MaxUint64`
otherwise; a `nil` slot is first replaced by an empty leaf, each touched
slot is overwritten with the node returned by the child's `Add`, and slots
outside the range are unchanged. -/
theorem hier_add_routing (fuel : ℕ) (children : List node) (iv : Interval)
    (idx : ℕ) (n' : node) (hlen : children.length = 16)
    (hsb : bucket iv.start ≤ bucket iv.end_) (hU : iv.end_ < U64)
    (h : addNode (fuel + 1) (node.hier children) iv idx = some n') :
    ∃ children', n' = node.hier children' ∧ children'.length = 16 ∧
      (∀ i, i < bucket iv.start ∨ bucket iv.end_ < i →
        children'.getD i node.nilNode = children.getD i node.nilNode) ∧
      (∀ i, bucket iv.start ≤ i → i ≤ bucket iv.end_ →
        ∃ r, addNode fuel (orEmptyLeaf (children.getD i node.nilNode))
            ⟨if i = bucket iv.start then shiftUp iv.start else 0,
             if i = bucket iv.end_ then shiftUp iv.end_ else maxUint64⟩
            idx = some r ∧
          children'.getD i node.nilNode = r) := by
  rw [addNode_hier_eq] at h
  cases hf : (List.range' (bucket iv.start)
      (bucket iv.end_ + 1 - bucket iv.start)).foldlM
      (addChildStep fuel iv idx) children with
  | none => rw [hf] at h; simp at h
  | some cs' =>
    rw [hf] at h
    have hn' : n' = node.hier cs' := by
      have := h
      simpa using this.symm
    have heb : bucket iv.end_ < 16 := bucket_lt_16 _ hU
    obtain ⟨hlencs, hout, hin⟩ := foldlM_addChildStep fuel iv idx
      (bucket iv.end_ + 1 - bucket iv.start) (bucket iv.start)
      children cs' (by omega) hf
    refine ⟨cs', hn', by rw [hlencs, hlen], ?_, ?_⟩
    · intro i hi
      exact hout i (by omega)
    · intro i h1 h2
      obtain ⟨r, hr, hcs⟩ := hin i h1 (by omega)
      refine ⟨r, ?_, hcs⟩
      have hci : childInterval iv i =
          ⟨if i = bucket iv.start then shiftUp iv.start else 0,
           if i = bucket iv.end_ then shiftUp iv.end_ else maxUint64⟩ := by
        unfold childInterval
        by_cases hie : i = bucket iv.start
        · rw [if_neg (show ¬ i > bucket iv.start by omega), if_pos hie]
        · rw [if_pos (show i > bucket iv.start by omega), if_neg hie]
      rw [← hci]
      exact hr

/-- C4 (amended): the value list returned by `tree.AllIntersections` is a
permutation — in unspecified order, since it enumerates a Go map — of the
matching values listed in value-store (ascending-index) order. -/
theorem result_perm_value_store_order {V : Type} [Inhabited V] (t : tree V)
    (qs qe : ℕ) (out : List V × Bool)
    (hout : possibleResult t qs qe out) :
    out.1.Perm (((rootIndices t qs qe).sort (· ≤ ·)).map
      (fun i => t.Values.getD i default)) := by
  obtain ⟨l, hnd, hfin, hout⟩ := hout
  by_cases hemp : rootIndices t qs qe = ∅
  · rw [if_pos hemp] at hout
    rw [hout, hemp]
    simp
  · rw [if_neg hemp] at hout
    rw [hout]
    show (l.map _).Perm _
    apply List.Perm.map
    rw [← Multiset.coe_eq_coe, coe_eq_val_of_nodup_toFinset hnd hfin]
    exact (Finset.sort_eq _ _).symm

/-- The `Add` sequence of the order counterexample. -/
def exOps : List (Interval × ℕ) := [(⟨0, 10⟩, 10), (⟨5, 15⟩, 20)]

/-- The tree `treeAddAll 2 exOps` builds: both intervals land in root
bucket 0, stored shifted by 4 bits. -/
def exTree : tree ℕ :=
  ⟨node.hier (node.leaf [0, 1] [⟨0, 160⟩, ⟨80, 240⟩] ::
    List.replicate 15 node.nilNode), [10, 20]⟩

theorem exTree_built : treeAddAll 2 exOps = some exTree := rfl

theorem exTree_query3 : rootIndices exTree 0 3 = {0} := by
  show queryNode (node.hier (node.leaf [0, 1] [⟨0, 160⟩, ⟨80, 240⟩] ::
    List.replicate 15 node.nilNode)) 0 3 = {0}
  rw [queryNode_hier,
    show Finset.Icc (bucket 0) (bucket 3) = {0} from by decide,
    Finset.singleton_biUnion]
  show queryNode (node.leaf [0, 1] [⟨0, 160⟩, ⟨80, 240⟩])
    (childInterval ⟨0, 3⟩ 0).start (childInterval ⟨0, 3⟩ 0).end_ = {0}
  rw [queryNode_leaf, if_neg (by decide)]
  decide

theorem exTree_query20 : rootIndices exTree 0 20 = {0, 1} := by
  show queryNode (node.hier (node.leaf [0, 1] [⟨0, 160⟩, ⟨80, 240⟩] ::
    List.replicate 15 node.nilNode)) 0 20 = {0, 1}
  rw [queryNode_hier,
    show Finset.Icc (bucket 0) (bucket 20) = {0} from by decide,
    Finset.singleton_biUnion]
  show queryNode (node.leaf [0, 1] [⟨0, 160⟩, ⟨80, 240⟩])
    (childInterval ⟨0, 20⟩ 0).start (childInterval ⟨0, 20⟩ 0).end_ = {0, 1}
  rw [queryNode_leaf, if_neg (by decide)]
  decide

/-- C4 counterexample: on the reachable tree `exTree` both insertions match
the query `[0, 20]`, and the output `([20, 10], true)` — enumerating the
index set in the order `[1, 0]`, which Go's unordered map iteration may
produce — is a possible result whose value list is NOT in value-store
(ascending insertion index) order. -/
theorem result_order_cex :
    treeAddAll 2 exOps = some exTree ∧
    possibleResult exTree 0 20 ([20, 10], true) ∧
    [20, 10] ≠ ((rootIndices exTree 0 20).sort (· ≤ ·)).map
      (fun i => exTree.Values.getD i default) := by
  refine ⟨exTree_built, ⟨[1, 0], by decide, ?_, ?_⟩, ?_⟩
  · rw [exTree_query20]
    decide
  · rw [exTree_query20]
    rw [if_neg (by decide)]
    decide
  · rw [exTree_query20]
    have hsort : (({0, 1} : Finset ℕ).sort (· ≤ ·)) = [0, 1] := by
      have h1 : (↑(({0, 1} : Finset ℕ).sort (· ≤ ·)) : Multiset ℕ) =
          ({0, 1} : Finset ℕ).val := Finset.sort_eq _ _
      have h2 : (↑([0, 1] : List ℕ) : Multiset ℕ) =
          ({0, 1} : Finset ℕ).val := by decide
      have hperm : (({0, 1} : Finset ℕ).sort (· ≤ ·)).Perm [0, 1] :=
        Multiset.coe_eq_coe.mp (h1.trans h2.symm)
      have hs1 : List.Sorted (· ≤ ·) (({0, 1} : Finset ℕ).sort (· ≤ ·)) :=
        Finset.sort_sorted _ _
      have hs2 : List.Sorted (fun a b : ℕ => a ≤ b) [0, 1] := by decide
      exact List.eq_of_perm_of_sorted hperm hs1 hs2
    rw [hsort]
    decide

/-- A splittable full leaf for the C2 witness: 16 intervals spanning two
distinct root buckets. -/
def c2wIvs : List Interval :=
  List.replicate 8 ⟨0, 0⟩ ++ List.replicate 8 ⟨2 ^ 60, 2 ^ 60⟩

/-- Parallel index list for `c2wIvs`. -/
def c2wIdxs : List ℕ := List.range 16

/-- Fresh hierarchical children for the C3 witness. -/
def c3Children : List node := List.replicate 16 node.nilNode

/-- Result of routing `[0, 2^60]` into `c3Children`: bucket 0 stores the
clip `[0, MaxUint64]` and bucket 1 the clip `[0, 2^60 << 4 = 0]`. -/
def c3Result : node :=
  node.hier (node.leaf [0] [⟨0, maxUint64⟩] ::
    node.leaf [0] [⟨0, 0⟩] :: List.replicate 14 node.nilNode)

/-- C9 witness data: one good insertion, then an inverted one whose start
bucket (1) exceeds its end bucket (0). -/
def c9Ops1 : List (Interval × ℕ) := [(⟨0, 5⟩, 1)]

/-- The inverted insertion of the C9 witness. -/
def c9Op : Interval × ℕ := (⟨2 ^ 60, 0⟩, 2)

/-- The tree after the C9 witness insertions: the inverted interval left no
trace in any node, but its value 2 is in the store. -/
def c9Tree : tree ℕ :=
  ⟨node.hier (node.leaf [0] [⟨0, 80⟩] :: List.replicate 15 node.nilNode),
    [1, 2]⟩

theorem exTree_possible3 : possibleResult exTree 0 3 ([10], true) := by
  refine ⟨[0], by decide, ?_, ?_⟩
  · rw [exTree_query3]
    decide
  · rw [exTree_query3, if_neg (by decide)]
    decide

theorem exTree_possible20 : possibleResult exTree 0 20 ([20, 10], true) := by
  refine ⟨[1, 0], by decide, ?_, ?_⟩
  · rw [exTree_query20]
    decide
  · rw [exTree_query20, if_neg (by decide)]
    decide

theorem allIntersections_correct_witness :
    (∀ op ∈ exOps, validIv op.1) ∧
    treeAddAll 2 exOps = some exTree ∧
    (0 : ℕ) ≤ 3 ∧ (3 : ℕ) < U64 ∧
    possibleResult exTree 0 3 ([10], true) ∧
    ((↑([10] : List ℕ) : Multiset ℕ) =
        ↑((exOps.filter (fun op => decide (Overlap op.1 0 3))).map
          Prod.snd) ∧
      ((true : Bool) = true ↔ ∃ op ∈ exOps, Overlap op.1 0 3)) :=
  ⟨by decide, exTree_built, by omega, by decide, exTree_possible3,
    allIntersections_correct 2 exOps exTree 0 3 ([10], true) (by decide)
      exTree_built (by omega) (by decide) exTree_possible3⟩

theorem leaf_add_promotion_cond :
    c2wIvs.length ≠ 0 ∧ c2wIvs.length % maxLeafFanout = 0 ∧
      shouldSplit c2wIvs = true := by decide

theorem leaf_add_promotion_witness :
    (c2wIvs.length ≠ 0 ∧ c2wIvs.length % maxLeafFanout = 0 ∧
      shouldSplit c2wIvs = true) ∧
    ((addNode 3 (node.leaf c2wIdxs c2wIvs) ⟨0, 0⟩ 16 =
        ((c2wIvs.zip c2wIdxs).foldlM
          (fun acc p => addNode 2 acc p.1 p.2) newHierarchicalNode).bind
          (fun h => addNode 2 h ⟨0, 0⟩ 16)) ∧
      (∀ n', addNode 3 (node.leaf c2wIdxs c2wIvs) ⟨0, 0⟩ 16 = some n' →
        ∃ ch', n' = node.hier ch')) :=
  ⟨leaf_add_promotion_cond,
    (leaf_add_promotion 2 c2wIdxs c2wIvs ⟨0, 0⟩ 16).1
      leaf_add_promotion_cond⟩

theorem hier_add_routing_witness :
    (c3Children.length = 16 ∧
      bucket (0 : ℕ) ≤ bucket (2 ^ 60 : ℕ) ∧ (2 ^ 60 : ℕ) < U64 ∧
      addNode 2 (node.hier c3Children) ⟨0, 2 ^ 60⟩ 0 = some c3Result) ∧
    (∃ children', c3Result = node.hier children' ∧ children'.length = 16 ∧
      (∀ i, i < bucket (0 : ℕ) ∨ bucket (2 ^ 60 : ℕ) < i →
        children'.getD i node.nilNode = c3Children.getD i node.nilNode) ∧
      (∀ i, bucket (0 : ℕ) ≤ i → i ≤ bucket (2 ^ 60 : ℕ) →
        ∃ r, addNode 1 (orEmptyLeaf (c3Children.getD i node.nilNode))
            ⟨if i = bucket (0 : ℕ) then shiftUp 0 else 0,
             if i = bucket (2 ^ 60 : ℕ) then shiftUp (2 ^ 60)
             else maxUint64⟩ 0 = some r ∧
          children'.getD i node.nilNode = r)) :=
  ⟨⟨by decide, by decide, by decide, rfl⟩,
    hier_add_routing 1 c3Children ⟨0, 2 ^ 60⟩ 0 c3Result (by decide)
      (by decide) (by decide) rfl⟩

theorem result_perm_witness :
    possibleResult exTree 0 20 ([20, 10], true) ∧
    ([20, 10] : List ℕ).Perm
      (((rootIndices exTree 0 20).sort (· ≤ ·)).map
        (fun i => exTree.Values.getD i default)) :=
  ⟨exTree_possible20,
    result_perm_value_store_order exTree 0 20 ([20, 10], true)
      exTree_possible20⟩

theorem leaf_fast_path_witness :
    (([5, 7] : List ℕ).length =
        ([⟨2, 3⟩, ⟨10, 12⟩] : List Interval).length ∧
      ∀ iv ∈ ([⟨2, 3⟩, ⟨10, 12⟩] : List Interval), iv.start < U64) ∧
    (queryNode (node.leaf [5, 7] [⟨2, 3⟩, ⟨10, 12⟩]) 0 maxUint64 =
        ([5, 7] : List ℕ).toFinset ∧
      queryNode (node.leaf [5, 7] [⟨2, 3⟩, ⟨10, 12⟩]) 0 maxUint64 =
        leafScan [5, 7] [⟨2, 3⟩, ⟨10, 12⟩] 0 maxUint64) :=
  ⟨⟨by decide, by decide⟩,
    leaf_whole_bucket_fast_path [5, 7] [⟨2, 3⟩, ⟨10, 12⟩] (by decide)
      (by decide)⟩

theorem found_flag_witness :
    possibleResult exTree 0 3 ([10], true) ∧
    (((true : Bool) = false → ([10] : List ℕ) = []) ∧
      ((true : Bool) = true → ([10] : List ℕ) ≠ [])) :=
  ⟨exTree_possible3,
    found_flag_consistent exTree 0 3 ([10], true) exTree_possible3⟩

theorem root_stays_hier_witness :
    treeAddAll 2 exOps = some exTree ∧
    ((∃ ch, (newTree ℕ).Root = node.hier ch) ∧
      (∃ ch, exTree.Root = node.hier ch) ∧
      (∀ (f : ℕ) (ch₀ : List node) (iv : Interval) (idx : ℕ) (n' : node),
        addNode f (node.hier ch₀) iv idx = some n' →
          ∃ ch', n' = node.hier ch')) :=
  ⟨exTree_built, root_stays_hierarchical 2 exOps exTree exTree_built⟩

theorem inverted_interval_witness :
    ((∀ o ∈ c9Ops1 ++ c9Op :: ([] : List (Interval × ℕ)),
        o.1.start < U64 ∧ o.1.end_ < U64) ∧
      bucket c9Op.1.end_ < bucket c9Op.1.start ∧
      treeAddAll 2 (c9Ops1 ++ c9Op :: []) = some c9Tree) ∧
    (c9Op.1.end_ < c9Op.1.start ∧
      (∀ (f : ℕ) (ch : List node) (idx : ℕ),
        addNode (f + 1) (node.hier ch) c9Op.1 idx =
          some (node.hier ch)) ∧
      c9Tree.Values = (c9Ops1 ++ c9Op :: []).map Prod.snd ∧
      c9Ops1.length ∉ allIndices c9Tree.Root ∧
      (∀ s e : ℕ, e < U64 → c9Ops1.length ∉ rootIndices c9Tree s e)) :=
  ⟨⟨by decide, by decide, rfl⟩,
    inverted_interval_never_reported 2 c9Ops1 c9Op [] c9Tree (by decide)
      (by decide) rfl⟩

theorem stored_indices_witness :
    ((∀ op ∈ exOps, op.1.start < U64 ∧ op.1.end_ < U64) ∧
      treeAddAll 2 exOps = some exTree) ∧
    ((∀ x ∈ allIndices exTree.Root, x < exTree.Values.length) ∧
      (∀ s e : ℕ, e < U64 → ∀ x ∈ rootIndices exTree s e,
        x < exTree.Values.length)) :=
  ⟨⟨by decide, exTree_built⟩,
    stored_indices_in_bounds 2 exOps exTree (by decide) exTree_built⟩

end MultiBinned
